import Mathlib

/-!
# Hashgraph simulation: event store, gossip, virtual voting, consensus time, execution

Shallow embedding of `event/event.go`, `node/node.go`, `consensus/consensus.go` and the
gossip phase of `main.go`.

Modelling conventions.

* A Go map is an association list whose keys are pairwise distinct; `range` visits the
  entries in list order (an arbitrary enumeration), a write to a key that is absent
  appends an entry, a write to a key that is present replaces the entry in place.
* `Event.Votes` is a Go map, hence a reference: copying an `Event` value copies the
  reference, not the vote map. Vote maps live in a `Heap`; `Event.Votes` is `none` for the
  nil map and `some r` for the map at address `r`.
* Go `int` and `int64` are 64-bit two's complement integers: arithmetic results are
  wrapped by `wrap64`, division truncates toward zero.
* The log lines slice `Hash[:6]`, which panics when the hash has fewer than six bytes;
  an operation that panics returns `none`.
* Nodes are built by `NewNode`, so their two maps are never nil.
* `NewEvent` takes the digest (hex of SHA-256) and the clock reading as parameters.
* A run of the network is a sequence of returning calls on a state made of the heap of
  vote maps and the node list (`Step`, `Reachable`).
-/

namespace Hashgraph

/-! ## Go maps as association lists -/

/-- Lookup `m[k]` with the comma-ok form: `none` when the key is absent. -/
def mapGet {κ α : Type} [DecidableEq κ] : List (κ × α) → κ → Option α
  | [], _ => none
  | (k', v) :: rest, k => if k' = k then some v else mapGet rest k

/-- Presence test `_, exists := m[k]`. -/
def mapHas {κ α : Type} [DecidableEq κ] (m : List (κ × α)) (k : κ) : Bool :=
  (mapGet m k).isSome

/-- Assignment `m[k] = v`. -/
def mapSet {κ α : Type} [DecidableEq κ] : List (κ × α) → κ → α → List (κ × α)
  | [], k, v => [(k, v)]
  | (k', v') :: rest, k, v =>
    if k' = k then (k, v) :: rest else (k', v') :: mapSet rest k v

/-- The keys of a map, in enumeration order. -/
def mapKeys {κ α : Type} (m : List (κ × α)) : List κ := m.map Prod.fst

/-! ## Machine integers -/

/-- Two's complement wrap-around of a 64-bit signed integer. -/
def wrap64 (x : Int) : Int := (x + 2 ^ 63) % 2 ^ 64 - 2 ^ 63

/-! ## Data model (`event.go`, `node.go`) -/

/-- A vote map `map[int]bool`. -/
abbrev VoteMap := List (Int × Bool)

/-- The vote maps allocated so far; an address is an index. -/
abbrev Heap := List VoteMap

/-- The struct `event.Event`. -/
structure Event where
  Sender : String
  Receiver : String
  Amount : Int
  Parents : List String
  Timestamp : Int
  ConsensusTime : Int
  Hash : String
  Votes : Option Nat
  Valid : Bool
  RoundReceived : Int
  IsWitness : Bool
  deriving DecidableEq, Repr

/-- The struct `node.Node`. -/
structure Node where
  ID : Int
  Events : List (String × Event)
  Balances : List (String × Int)
  deriving DecidableEq, Repr

/-- The vote map an event refers to (empty for the nil map). -/
def votesOf (h : Heap) (e : Event) : VoteMap :=
  match e.Votes with
  | none => []
  | some r => h.getD r []

/-- The number of entries of a vote map whose value is true (`countVotes`). -/
def countVotes (m : VoteMap) : Nat := m.countP (fun kv => kv.2)

/-- Whether the slice `Hash[:6]` of a log line is in bounds. -/
def hashLoggable (e : Event) : Bool := decide (6 ≤ e.Hash.utf8ByteSize)

/-! ## `Node.AddEvent` -/

/-- The method `AddEvent`. -/
def AddEvent (n : Node) (e : Event) : Node :=
  if mapHas n.Events e.Hash then n
  else { n with Events := mapSet n.Events e.Hash e }

/-! ## `Node.Gossip` -/

/-- The body of the inner loop of `Gossip`: the peer receives one event of the sender. -/
def receive (peer : Node) (eventToSend : Event) : Option Node :=
  if mapHas peer.Events eventToSend.Hash then some peer
  else if hashLoggable eventToSend then
    some { peer with Events := mapSet peer.Events eventToSend.Hash eventToSend }
  else none

/-- The body of the outer loop of `Gossip` for one peer. -/
def gossipTo (n : Node) (peer : Node) : Option Node :=
  if peer.ID = n.ID then some peer
  else (n.Events.map Prod.snd).foldlM receive peer

/-- The method `Gossip`: the new states of the peers, in the order of the peer list. The
sender itself is never written (a peer with the sender's ID is skipped). -/
def Gossip (n : Node) (peers : List Node) : Option (List Node) :=
  peers.mapM (gossipTo n)

/-- One turn of the gossip phase of `main.go`: the node at index `i` calls `Gossip` with
the whole node list. -/
def gossipTurn (nodes : List Node) (i : Nat) : Option (List Node) :=
  match nodes.get? i with
  | none => some nodes
  | some n => Gossip n nodes

/-- One full gossip round: `for _, n := range nodes { n.Gossip(nodes) }`. -/
def gossipRound (nodes : List Node) : Option (List Node) :=
  (List.range nodes.length).foldlM gossipTurn nodes

/-! ## `Node.VirtualVoting` -/

/-- The threshold `(2*totalNodes)/3 + 1` in Go `int` arithmetic. -/
def threshold (totalNodes : Int) : Int :=
  wrap64 (Int.tdiv (wrap64 (2 * totalNodes)) 3 + 1)

/-- The body of the loop of `VirtualVoting` for one event. -/
def voteStep (id : Int) (thr : Int) (h : Heap) (currentEvent : Event) :
    Option (Heap × Event) :=
  let (h1, r) :=
    match currentEvent.Votes with
    | some r => (h, r)
    | none => (h ++ [[]], h.length)
  let h2 := h1.set r (mapSet (h1.getD r []) id true)
  let count : Int := (countVotes (h2.getD r []) : Nat)
  if currentEvent.Valid = false ∧ thr ≤ count then
    if hashLoggable currentEvent then
      some (h2, { currentEvent with Votes := some r, Valid := true })
    else none
  else some (h2, { currentEvent with Votes := some r })

/-- The loop of `VirtualVoting` over the store, building `updatedEvents`. -/
def voteLoop (id : Int) (thr : Int) :
    Heap → List (String × Event) → Option (Heap × List (String × Event))
  | h, [] => some (h, [])
  | h, (hash, e) :: rest =>
    match voteStep id thr h e with
    | none => none
    | some (h1, e1) =>
      match voteLoop id thr h1 rest with
      | none => none
      | some (h2, rest1) => some (h2, (hash, e1) :: rest1)

/-- The method `VirtualVoting`. -/
def VirtualVoting (h : Heap) (n : Node) (totalNodes : Int) : Option (Heap × Node) :=
  let thr := threshold totalNodes
  if totalNodes ≤ 0 then some (h, n)
  else
    match voteLoop n.ID thr h n.Events with
    | none => none
    | some (h1, updatedEvents) => some (h1, { n with Events := updatedEvents })

/-! ## `consensus.CalculateGlobalConsensusTime` -/

/-- The body of the collection loop on one event copy: the state is the pair of
`uniqueEvents` and `allTimestamps`. -/
def collectStep (st : List (String × Event) × List Int) (e : Event) :
    List (String × Event) × List Int :=
  if e.Valid = true ∧ mapHas st.1 e.Hash = false then
    (mapSet st.1 e.Hash e, st.2 ++ [e.Timestamp])
  else st

/-- All event copies of all nodes, in iteration order. -/
def allEvents (nodes : List Node) : List Event :=
  nodes.flatMap (fun n => n.Events.map Prod.snd)

/-- The collection loop over all nodes. -/
def collect (nodes : List Node) : List (String × Event) × List Int :=
  (allEvents nodes).foldl collectStep ([], [])

/-- The map `uniqueEvents` after the collection loop. -/
def uniqueEvents (nodes : List Node) : List (String × Event) := (collect nodes).1

/-- The slice `allTimestamps` after the collection loop. -/
def allTimestamps (nodes : List Node) : List Int := (collect nodes).2

/-- Ascending sort of `int64` values (`sort.Slice` with `<`). -/
def sortTimestamps (ts : List Int) : List Int :=
  ts.insertionSort (fun a b => a ≤ b)

/-- The median selection on the sorted timestamps. -/
def medianOfSorted (sorted : List Int) : Int :=
  if sorted.length % 2 = 1 then sorted.getD (sorted.length / 2) 0
  else sorted.getD (sorted.length / 2 - 1) 0

/-- The value `medianTime`; `none` when `allTimestamps` is empty (early return). -/
def medianTime (nodes : List Node) : Option Int :=
  let ts := allTimestamps nodes
  if ts.length = 0 then none else some (medianOfSorted (sortTimestamps ts))

/-- The apply step on one event. -/
def stamp (unique : List (String × Event)) (median : Int) (e : Event) : Event :=
  if mapHas unique e.Hash then
    (if e.ConsensusTime ≠ median then { e with ConsensusTime := median } else e)
  else e

/-- The apply step on one node: `updatedNodeEvents`. -/
def stampNode (unique : List (String × Event)) (median : Int) (n : Node) : Node :=
  { n with Events := n.Events.map (fun kv => (kv.1, stamp unique median kv.2)) }

/-- The function `CalculateGlobalConsensusTime`. -/
def CalculateGlobalConsensusTime (nodes : List Node) : List Node :=
  match medianTime nodes with
  | none => nodes
  | some median => nodes.map (stampNode (uniqueEvents nodes) median)

/-! ## `Node.ExecuteTransactions` -/

/-- Balance lookup `n.Balances[k]`: zero when the key is absent. -/
def balanceOf (b : List (String × Int)) (k : String) : Int := (mapGet b k).getD 0

/-- String comparison `a < b` (bytewise lexicographic, which on UTF-8 is the order of the
code point sequences). -/
def strLess (a b : String) : Bool := decide (a.data < b.data)

/-- The `less` function handed to `sort.Slice` in `ExecuteTransactions`. -/
def txLess (a b : Event) : Bool :=
  if a.ConsensusTime = b.ConsensusTime then strLess a.Hash b.Hash
  else decide (a.ConsensusTime < b.ConsensusTime)

/-- The filter loop: valid events with a consensus time. -/
def transactionsToExecute (n : Node) : List Event :=
  (n.Events.map Prod.snd).filter (fun e => e.Valid && decide (e.ConsensusTime > 0))

/-- The call `sort.Slice(transactionsToExecute, less)`. Elements that `less` does not
separate keep their enumeration order here; `sort.Slice` leaves their order open. -/
def sortTransactions (txs : List Event) : List Event :=
  txs.insertionSort (fun a b => txLess b a = false)

/-- The balance effect of one transfer (the body of the execution loop). -/
def transfer (b : List (String × Int)) (e : Event) : List (String × Int) :=
  if e.Sender = "" then
    mapSet b e.Receiver (wrap64 (balanceOf b e.Receiver + e.Amount))
  else if balanceOf b e.Sender ≥ e.Amount then
    let b1 := mapSet b e.Sender (wrap64 (balanceOf b e.Sender - e.Amount))
    mapSet b1 e.Receiver (wrap64 (balanceOf b1 e.Receiver + e.Amount))
  else b

/-- One iteration of the execution loop; each of its three branches logs `Hash[:6]`. -/
def applyTx (b : List (String × Int)) (e : Event) : Option (List (String × Int)) :=
  if hashLoggable e then some (transfer b e) else none

/-- The method `ExecuteTransactions`. -/
def ExecuteTransactions (n : Node) : Option Node :=
  let txs := transactionsToExecute n
  if txs.length = 0 then some n
  else
    match (sortTransactions txs).foldlM applyTx n.Balances with
    | none => none
    | some b => some { n with Balances := b }

/-! ## Sample states -/

/-- A freshly created event (as `NewEvent` returns it) whose vote map is at address `r`. -/
def freshEvent (hash sender receiver : String) (amount ts : Int) (r : Nat) : Event :=
  { Sender := sender, Receiver := receiver, Amount := amount, Parents := [], Timestamp := ts,
    ConsensusTime := 0, Hash := hash, Votes := some r, Valid := false, RoundReceived := 0,
    IsWitness := false }

/-- A mint of 100 to Alice. -/
def mintAlice : Event := freshEvent "a1b2c3" "" "Alice" 100 7 0

/-- A node that knows nothing. -/
def emptyNode (id : Int) : Node := { ID := id, Events := [], Balances := [] }

/-- A node holding `mintAlice`. -/
def nodeWithMint (id : Int) : Node :=
  { ID := id, Events := [("a1b2c3", mintAlice)], Balances := [] }

/-! ## Well-formedness of states -/

/-- Every vote-map reference of the store points into the heap (Go has no dangling
references). -/
def heapOK (h : Heap) (evs : List (String × Event)) : Bool :=
  evs.all (fun kv => match kv.2.Votes with
    | none => true
    | some r => decide (r < h.length))

/-- Every hash of the store is long enough for the log lines (six bytes; the digests of
`NewEvent` have sixty-four). -/
def hashesOK (evs : List (String × Event)) : Bool :=
  evs.all (fun kv => hashLoggable kv.2)

/-- The store is keyed by the `Hash` field of its events. -/
def keyedByHash (evs : List (String × Event)) : Bool :=
  evs.all (fun kv => decide (kv.2.Hash = kv.1))

/-- The heap `h` comes from `h0` by votes of `id` and allocations only. -/
def HeapExt (id : Int) (h0 h : Heap) : Prop :=
  h0.length ≤ h.length ∧
  ∀ r, r < h0.length →
    h.getD r [] = h0.getD r [] ∨ h.getD r [] = mapSet (h0.getD r []) id true

/-- The entry `kv2` is the entry `kv` after the vote of `id` under threshold `thr`, the
call having started in heap `h0`: same key, same fields except that the vote reference is
set and the validity flag is raised when the tally reaches the threshold. -/
def VotedAs (id thr : Int) (h0 : Heap) (kv kv2 : String × Event) : Prop :=
  kv2.1 = kv.1 ∧
  kv2.2 = { kv.2 with
    Votes := kv2.2.Votes,
    Valid := kv.2.Valid ||
      decide (thr ≤ ((countVotes (mapSet (votesOf h0 kv.2) id true) : Nat) : Int)) } ∧
  (∀ r, kv.2.Votes = some r → kv2.2.Votes = some r)

/-- The processed prefix `seen` of the event copies and the state `st` of the collection
loop agree: `allTimestamps` lists the timestamps of `uniqueEvents` in order, the keys are
distinct, every entry is a valid processed copy under its own hash, and every valid
processed copy has its hash among the keys. -/
def CollectInv (seen : List Event) (st : List (String × Event) × List Int) : Prop :=
  st.2 = st.1.map (fun kv => kv.2.Timestamp) ∧
  (mapKeys st.1).Nodup ∧
  (∀ kv ∈ st.1, kv.2.Hash = kv.1 ∧ kv.2.Valid = true ∧ kv.2 ∈ seen) ∧
  (∀ e ∈ seen, e.Valid = true → e.Hash ∈ mapKeys st.1)

/-- Event copies with the creation timestamps 5, 1, 9 and 3, all valid. -/
def stampedEvent (hash : String) (ts : Int) : Event :=
  { Sender := "Alice", Receiver := "Bob", Amount := 1, Parents := [], Timestamp := ts,
    ConsensusTime := 0, Hash := hash, Votes := none, Valid := true, RoundReceived := 0,
    IsWitness := false }

/-- A node holding the hashes with timestamps 5, 1 and 9. -/
def medianNodeA : Node :=
  { ID := 1, Balances := [],
    Events := [("h5", stampedEvent "h5" 5), ("h1", stampedEvent "h1" 1),
      ("h9", stampedEvent "h9" 9)] }

/-- A node holding the hashes with timestamps 1, 9 and 3. -/
def medianNodeB : Node :=
  { ID := 2, Balances := [],
    Events := [("h1", stampedEvent "h1" 1), ("h9", stampedEvent "h9" 9),
      ("h3", stampedEvent "h3" 3)] }

/-- Two nodes that hold four valid hashes between them, two of the hashes on both. -/
def medianNodes : List Node := [medianNodeA, medianNodeB]

/-- A node whose copy of `h5` is valid, creation timestamp 5. -/
def stampNodeA : Node :=
  { ID := 1, Balances := [("Alice", 10)], Events := [("h5", stampedEvent "h5" 5)] }

/-- A node whose copy of `h5` is not valid and carries an old consensus time 42, and which
holds `h7`, valid nowhere, with consensus time 9. -/
def stampNodeB : Node :=
  { ID := 2, Balances := [],
    Events :=
      [("h5", { stampedEvent "h5" 5 with Valid := false, ConsensusTime := 42 }),
       ("h7", { stampedEvent "h7" 8 with Valid := false, ConsensusTime := 9 })] }

/-- The two nodes above. -/
def stampNodes : List Node := [stampNodeA, stampNodeB]

/-- A transfer of 20 from Alice to Bob, valid, with consensus time 1. -/
def overdraft : Event :=
  { Sender := "Alice", Receiver := "Bob", Amount := 20, Parents := [], Timestamp := 1,
    ConsensusTime := 1, Hash := "aaaaaa", Votes := none, Valid := true, RoundReceived := 0,
    IsWitness := false }

/-- A mint of 5 to Carol, valid, with consensus time 2. -/
def mintCarol : Event :=
  { Sender := "", Receiver := "Carol", Amount := 5, Parents := [], Timestamp := 2,
    ConsensusTime := 2, Hash := "bbbbbb", Votes := none, Valid := true, RoundReceived := 0,
    IsWitness := false }

/-- A node on which Alice has 10: the transfer of 20 is rejected, the mint that follows it
in the order is applied. The store enumerates the mint first. -/
def overdraftNode : Node :=
  { ID := 1, Balances := [("Alice", 10)],
    Events := [("bbbbbb", mintCarol), ("aaaaaa", overdraft)] }

/-- What a peer `p` becomes (`p2`) when a sender with the events `es` (in enumeration
order) gossips to it: ID and balances are kept, the old entries stay in place, the entries
appended are events of the sender under their own hash, and a hash is looked up in the old
store first and, failing that, among the sender's events. -/
def Received (es : List Event) (p p2 : Node) : Prop :=
  p2.ID = p.ID ∧ p2.Balances = p.Balances ∧
  (∃ added : List (String × Event), p2.Events = p.Events ++ added ∧
    ∀ kv ∈ added, kv.2.Hash = kv.1 ∧ kv.2 ∈ es) ∧
  ∀ k, mapGet p2.Events k =
    (mapGet p.Events k).orElse (fun _ => es.find? (fun e => decide (e.Hash = k)))

/-- A node holding `mintAlice` (already valid there) and a second event. -/
def senderNode : Node :=
  { ID := 1, Balances := [("Alice", 3)],
    Events := [("a1b2c3", { mintAlice with Valid := true }), ("bbbbbb", mintCarol)] }

/-- A node holding its own, not yet valid, copy of `mintAlice`. -/
def holderNode : Node := { ID := 2, Balances := [], Events := [("a1b2c3", mintAlice)] }

/-- A sender, a peer that holds one of its hashes, and a peer that holds none. -/
def gossipNodes : List Node := [senderNode, holderNode, emptyNode 3]

/-- How a peer `q` relates to its state `q2` after a `Gossip` call of the sender `n`. -/
def Grown (n q q2 : Node) : Prop :=
  q2.ID = q.ID ∧
  (∀ k, k ∈ mapKeys q.Events → k ∈ mapKeys q2.Events) ∧
  (keyedByHash q.Events = true → keyedByHash q2.Events = true) ∧
  (hashesOK q.Events = true → hashesOK q2.Events = true) ∧
  (∀ k, k ∈ mapKeys q2.Events → k ∈ mapKeys q.Events ∨ k ∈ mapKeys n.Events) ∧
  (q.ID ≠ n.ID → ∀ k, k ∈ mapKeys n.Events → k ∈ mapKeys q2.Events) ∧
  (q.ID = n.ID → q2 = q)

/-- The state `ns` of the gossip round that started from `nodes`, before the turn of the
node at index `i`: same IDs, every node has kept its hashes and holds only hashes of the
initial stores, and every node holds the initial hashes of the nodes whose turn is over. -/
def RoundInv (nodes : List Node) (i : Nat) (ns : List Node) : Prop :=
  ns.map (fun q => q.ID) = nodes.map (fun q => q.ID) ∧
  (∀ (j : Nat) (p q : Node), nodes[j]? = some p → ns[j]? = some q →
    (∀ k, k ∈ mapKeys p.Events → k ∈ mapKeys q.Events) ∧
    keyedByHash q.Events = true ∧ hashesOK q.Events = true ∧
    (∀ k, k ∈ mapKeys q.Events → ∃ m ∈ nodes, k ∈ mapKeys m.Events)) ∧
  (∀ (t : Nat) (p q : Node), t < i → nodes[t]? = some p → q ∈ ns →
    ∀ k, k ∈ mapKeys p.Events → k ∈ mapKeys q.Events)

/-- The store `evs2` still has every key of `evs`, and a copy that was valid under a key
is valid under it in `evs2`. -/
def Kept (evs evs2 : List (String × Event)) : Prop :=
  ∀ k c, mapGet evs k = some c →
    ∃ c2, mapGet evs2 k = some c2 ∧ (c.Valid = true → c2.Valid = true)

/-- A node whose two copies are not valid. -/
def pendingNode : Node :=
  { ID := 4, Balances := [("Alice", 10)],
    Events := [("a1b2c3", mintAlice),
      ("h7", { stampedEvent "h7" 8 with Valid := false, ConsensusTime := 9 })] }

/-- The store `evs2` is keyed by hash if `evs` is, and has pairwise distinct keys if `evs`
has (as every Go map has). -/
def KeepsKeying (evs evs2 : List (String × Event)) : Prop :=
  (keyedByHash evs = true → keyedByHash evs2 = true) ∧
  ((mapKeys evs).Nodup → (mapKeys evs2).Nodup)

/-- The node `overdraftNode` with its store enumerated in the other order. -/
def overdraftNodeFlipped : Node :=
  { ID := 1, Balances := [("Alice", 10)],
    Events := [("aaaaaa", overdraft), ("bbbbbb", mintCarol)] }

/-- The heap `h2` has every map of `h` that already holds the vote of `id` unchanged. -/
def HeapKeeps (id : Int) (h h2 : Heap) : Prop :=
  h.length ≤ h2.length ∧
  ∀ r, r < h.length → mapSet (h.getD r []) id true = h.getD r [] →
    h2.getD r [] = h.getD r []

/-- The event `e` has been through the vote of `id` under threshold `thr` in heap `h`: its
vote map is allocated and holds the vote, and the event is valid unless the tally is below
the threshold. -/
def Settled (id thr : Int) (h : Heap) (e : Event) : Prop :=
  ∃ r, e.Votes = some r ∧ r < h.length ∧
    mapSet (h.getD r []) id true = h.getD r [] ∧
    (e.Valid = true ∨ ¬ thr ≤ ((countVotes (h.getD r []) : Nat) : Int))

/-- A single node on which Alice has 40 and whose store holds the fresh mint of 100. -/
def soloNode : Node :=
  { ID := 1, Balances := [("Alice", 40), ("Bob", 7)], Events := [("a1b2c3", mintAlice)] }

/-- The same node with Alice at the largest 64-bit value. -/
def soloNodeFull : Node :=
  { ID := 1, Balances := [("Alice", 2 ^ 63 - 1), ("Bob", 7)],
    Events := [("a1b2c3", mintAlice)] }

/-- The single-participant round: one voting pass with `N = 1`, the aggregator over the
one-node list, then execution; the result is the node after execution. -/
def soloRound (h : Heap) (n : Node) : Option Node :=
  match VirtualVoting h n 1 with
  | none => none
  | some (_, n1) =>
    match CalculateGlobalConsensusTime [n1] with
    | [n2] => ExecuteTransactions n2
    | _ => none

/-- The sum of all balances of a balance map. -/
def supply (b : List (String × Int)) : Int := (b.map Prod.snd).sum

/-- The sum of the amounts of the events with an empty sender. -/
def mintTotal (txs : List Event) : Int :=
  ((txs.filter (fun e => decide (e.Sender = ""))).map (fun e => e.Amount)).sum

/-- Whether a value fits the 64-bit `int`. -/
def inInt64 (x : Int) : Bool := decide (-2 ^ 63 ≤ x ∧ x < 2 ^ 63)

/-- Whether every balance that `transfer b e` writes fits the 64-bit `int` before
wrap-around. -/
def transferFits (b : List (String × Int)) (e : Event) : Bool :=
  if e.Sender = "" then inInt64 (balanceOf b e.Receiver + e.Amount)
  else if balanceOf b e.Sender ≥ e.Amount then
    inInt64 (balanceOf b e.Sender - e.Amount) &&
      inInt64 (balanceOf (mapSet b e.Sender (wrap64 (balanceOf b e.Sender - e.Amount)))
        e.Receiver + e.Amount)
  else true

/-- Whether every balance written while the events are applied in order fits. -/
def runFits : List (String × Int) → List Event → Bool
  | _, [] => true
  | b, e :: rest => transferFits b e && runFits (transfer b e) rest

/-- A node on which Carol holds the largest 64-bit value and a mint of 5 to Carol is due. -/
def brimNode : Node :=
  { ID := 1, Balances := [("Carol", 2 ^ 63 - 1)], Events := [("bbbbbb", mintCarol)] }

/-- A transfer of 4 from Alice to herself, valid, with consensus time 3. -/
def selfTransfer : Event :=
  { Sender := "Alice", Receiver := "Alice", Amount := 4, Parents := [], Timestamp := 3,
    ConsensusTime := 3, Hash := "cccccc", Votes := none, Valid := true, RoundReceived := 0,
    IsWitness := false }

/-- A node with a rejected transfer, a mint and a self-transfer to execute. -/
def supplyNode : Node :=
  { ID := 1, Balances := [("Alice", 10), ("Bob", 1)],
    Events := [("bbbbbb", mintCarol), ("cccccc", selfTransfer), ("aaaaaa", overdraft)] }

/-! ## `event.NewEvent` -/

/-- The call `fmt.Sprint(x)` on an integer: its decimal digits, with a leading minus sign
when negative. -/
def sprint (x : Int) : String := x.repr

/-- The string `hashInput` that `NewEvent` hands to the digest. -/
def hashInput (sender receiver : String) (amount timestamp : Int) (parents : List String) :
    String :=
  parents.foldl (fun acc p => acc ++ p) (sender ++ receiver ++ sprint amount ++ sprint timestamp)

/-- The function `NewEvent`. The digest (hex of SHA-256) and the clock reading are taken as
parameters; the fresh vote map is allocated at the end of the heap. -/
def NewEvent (digest : String → String) (now : Int) (h : Heap)
    (sender receiver : String) (amount : Int) (parents : List String) : Heap × Event :=
  (h ++ [[]],
   { Sender := sender, Receiver := receiver, Amount := amount, Parents := parents,
     Timestamp := now, ConsensusTime := 0,
     Hash := digest (hashInput sender receiver amount now parents),
     Votes := some h.length, Valid := false, RoundReceived := 0, IsWitness := false })

/-- The value of a decimal digit character. -/
def digitVal (c : Char) : Nat := c.toNat - 48

/-! ## Runs of the network -/

/-- One operation on the network: the state is the heap of vote maps and the node list.
An operation that panics makes no step. `addEvent` stores an event as `NewEvent` creates
it (no votes, not valid, consensus time 0); `gossip` is `n.Gossip(nodes)` and `gossipOne`
is `n.Gossip([p])` for two nodes of the list. -/
inductive Step : Heap × List Node → Heap × List Node → Prop
  | addEvent (h : Heap) (nodes : List Node) (i : Nat) (n : Node) (e : Event) :
      nodes[i]? = some n → e.Valid = false → e.ConsensusTime = 0 →
      votesOf (h ++ [[]]) e = [] →
      Step (h, nodes) (h ++ [[]], nodes.set i (AddEvent n e))
  | gossip (h : Heap) (nodes : List Node) (i : Nat) (n : Node) (nodes2 : List Node) :
      nodes[i]? = some n → Gossip n nodes = some nodes2 → Step (h, nodes) (h, nodes2)
  | gossipOne (h : Heap) (nodes : List Node) (i j : Nat) (n p p2 : Node) :
      nodes[i]? = some n → nodes[j]? = some p → Gossip n [p] = some [p2] →
      Step (h, nodes) (h, nodes.set j p2)
  | vote (h : Heap) (nodes : List Node) (i : Nat) (n : Node) (N : Int) (h2 : Heap)
      (n2 : Node) :
      nodes[i]? = some n → VirtualVoting h n N = some (h2, n2) →
      Step (h, nodes) (h2, nodes.set i n2)
  | execute (h : Heap) (nodes : List Node) (i : Nat) (n n2 : Node) :
      nodes[i]? = some n → ExecuteTransactions n = some n2 →
      Step (h, nodes) (h, nodes.set i n2)
  | consensus (h : Heap) (nodes : List Node) :
      Step (h, nodes) (h, CalculateGlobalConsensusTime nodes)

/-- The states reached from nodes with empty stores. -/
inductive Reachable : Heap × List Node → Prop
  | init (h : Heap) (nodes : List Node) :
      (∀ n ∈ nodes, n.Events = []) → Reachable (h, nodes)
  | step (s s2 : Heap × List Node) : Reachable s → Step s s2 → Reachable s2

/-- Every event copy that carries a consensus time has its hash valid on some copy. -/
def StampedValid (es : List Event) : Prop :=
  ∀ e ∈ es, e.ConsensusTime ≠ 0 → ∃ x ∈ es, x.Valid = true ∧ x.Hash = e.Hash

/-- The copies `es2` come from the copies `es`: every old copy has a successor with its
hash that is valid if it was, and every new copy either has consensus time 0 or has the
hash and consensus time of an old copy. -/
def Evolves (es es2 : List Event) : Prop :=
  (∀ x ∈ es, ∃ y ∈ es2, y.Hash = x.Hash ∧ (x.Valid = true → y.Valid = true)) ∧
  (∀ y ∈ es2, y.ConsensusTime = 0 ∨
    ∃ x ∈ es, x.Hash = y.Hash ∧ x.ConsensusTime = y.ConsensusTime)

/-- The store of `p2` comes from the store of `p`, given the copies `old` of the network. -/
def NodeEvolves (old : List Event) (p p2 : Node) : Prop :=
  (∀ x ∈ p.Events, ∃ y ∈ p2.Events, y.2.Hash = x.2.Hash ∧
    (x.2.Valid = true → y.2.Valid = true)) ∧
  (∀ y ∈ p2.Events, y.2.ConsensusTime = 0 ∨
    ∃ x ∈ old, x.Hash = y.2.Hash ∧ x.ConsensusTime = y.2.ConsensusTime)

/-- The copy of `mintAlice` after its holder has voted it valid. -/
def mintAliceValid : Event := { mintAlice with Valid := true }

/-- A state reached from two empty nodes: node 1 created and stored `mintAlice`, voted it
valid with `N = 1`, and gossiped it to node 2. -/
def reachedState : Heap × List Node :=
  ([[(1, true)]],
   [{ ID := 1, Events := [("a1b2c3", mintAliceValid)], Balances := [] },
    { ID := 2, Events := [("a1b2c3", mintAliceValid)], Balances := [] }])

/-- The call `ExecuteTransactions` made `k` times in a row on one node, as the round loop
of `main.go` does once per round. -/
def executeTimes : Nat → Node → Option Node
  | 0, n => some n
  | k + 1, n =>
    match ExecuteTransactions n with
    | none => none
    | some n1 => executeTimes k n1

/-- A node whose store holds the valid mint of 5 to Carol, Carol at 2. -/
def carolNode : Node :=
  { ID := 1, Balances := [("Carol", 2), ("Bob", 7)], Events := [("bbbbbb", mintCarol)] }

/-! # Theorems -/

/-! ## Association lists -/

theorem mapGet_mapSet_self {κ α : Type} [DecidableEq κ] (m : List (κ × α)) (k : κ) (v : α) :
    mapGet (mapSet m k v) k = some v := by
  induction m with
  | nil => simp [mapSet, mapGet]
  | cons p rest ih =>
    obtain ⟨k', v'⟩ := p
    by_cases hk : k' = k
    · simp [mapSet, mapGet, hk]
    · simp [mapSet, mapGet, hk, ih]

theorem mapGet_mapSet_ne {κ α : Type} [DecidableEq κ] (m : List (κ × α)) (k j : κ) (v : α)
    (hj : j ≠ k) : mapGet (mapSet m k v) j = mapGet m j := by
  induction m with
  | nil =>
    have : ¬ k = j := fun h => hj h.symm
    simp [mapSet, mapGet, this]
  | cons p rest ih =>
    obtain ⟨k', v'⟩ := p
    by_cases hk : k' = k
    · have : ¬ k = j := fun h => hj h.symm
      simp [mapSet, mapGet, hk, this]
    · by_cases hkj : k' = j
      · subst hkj
        simp [mapSet, mapGet, hk]
      · simp [mapSet, mapGet, hk, hkj, ih]

theorem mapSet_of_absent {κ α : Type} [DecidableEq κ] (m : List (κ × α)) (k : κ) (v : α)
    (h : mapGet m k = none) : mapSet m k v = m ++ [(k, v)] := by
  induction m with
  | nil => simp [mapSet]
  | cons p rest ih =>
    obtain ⟨k', v'⟩ := p
    by_cases hk : k' = k
    · simp [mapGet, hk] at h
    · simp [mapGet, hk] at h
      simp [mapSet, hk, ih h]

theorem mapGet_none_iff {κ α : Type} [DecidableEq κ] (m : List (κ × α)) (k : κ) :
    mapGet m k = none ↔ k ∉ mapKeys m := by
  induction m with
  | nil => simp [mapGet, mapKeys]
  | cons p rest ih =>
    obtain ⟨k', v'⟩ := p
    by_cases hk : k' = k
    · simp [mapGet, mapKeys, hk]
    · have hk2 : ¬ k = k' := fun h => hk h.symm
      simp only [mapGet, hk, if_false, ih, mapKeys, List.map_cons, List.mem_cons, hk2, false_or]

theorem mapHas_iff {κ α : Type} [DecidableEq κ] (m : List (κ × α)) (k : κ) :
    mapHas m k = true ↔ k ∈ mapKeys m := by
  have h := mapGet_none_iff m k
  unfold mapHas
  cases hg : mapGet m k with
  | none => simp [hg] at h; simp [h]
  | some v =>
    simp [hg] at h
    simp [h]

theorem mapHas_false_iff {κ α : Type} [DecidableEq κ] (m : List (κ × α)) (k : κ) :
    mapHas m k = false ↔ mapGet m k = none := by
  unfold mapHas
  cases mapGet m k <;> simp

theorem mapGet_mem {κ α : Type} [DecidableEq κ] (m : List (κ × α)) (k : κ) (v : α)
    (h : mapGet m k = some v) : (k, v) ∈ m := by
  induction m with
  | nil => simp [mapGet] at h
  | cons p rest ih =>
    obtain ⟨k', v'⟩ := p
    by_cases hk : k' = k
    · simp [mapGet, hk] at h
      simp [hk, h]
    · simp [mapGet, hk] at h
      exact List.mem_cons_of_mem _ (ih h)

theorem mapGet_append {κ α : Type} [DecidableEq κ] (m m' : List (κ × α)) (k : κ) :
    mapGet (m ++ m') k = (mapGet m k).orElse (fun _ => mapGet m' k) := by
  induction m with
  | nil => simp [mapGet]
  | cons p rest ih =>
    obtain ⟨k', v'⟩ := p
    by_cases hk : k' = k
    · simp [mapGet, hk]
    · simp [mapGet, hk, ih]

/-! ## Machine integers -/

theorem wrap64_of_range (x : Int) (h1 : -2 ^ 63 ≤ x) (h2 : x < 2 ^ 63) : wrap64 x = x := by
  unfold wrap64
  norm_num at h1 h2 ⊢
  omega

theorem threshold_of_range (N : Int) (h1 : 1 ≤ N) (h2 : N < 2 ^ 62) :
    threshold N = 2 * N / 3 + 1 := by
  unfold threshold
  norm_num at h2
  rw [wrap64_of_range (2 * N) (by norm_num; omega) (by norm_num; omega)]
  rw [Int.tdiv_eq_ediv (by omega) (by norm_num)]
  rw [wrap64_of_range _ (by norm_num; omega) (by norm_num; omega)]

/-! ## The heap of vote maps -/

theorem heap_getD_set_self (h : Heap) (r : Nat) (m : VoteMap) (hr : r < h.length) :
    (h.set r m).getD r [] = m := by
  simp [List.getD_eq_getElem?_getD, List.getElem?_set, hr]

theorem heap_getD_set_ne (h : Heap) (r j : Nat) (m : VoteMap) (hj : j ≠ r) :
    (h.set r m).getD j [] = h.getD j [] := by
  have : r ≠ j := fun e => hj e.symm
  simp [List.getD_eq_getElem?_getD, List.getElem?_set, this]

theorem heap_getD_append_left (h x : Heap) (j : Nat) (hj : j < h.length) :
    (h ++ x).getD j [] = h.getD j [] := by
  simp [List.getD_eq_getElem?_getD, List.getElem?_append_left hj]

theorem mapSet_mapSet_self {κ α : Type} [DecidableEq κ] (m : List (κ × α)) (k : κ) (v : α) :
    mapSet (mapSet m k v) k v = mapSet m k v := by
  induction m with
  | nil => simp [mapSet]
  | cons p rest ih =>
    obtain ⟨k', v'⟩ := p
    by_cases hk : k' = k
    · simp [mapSet, hk]
    · simp [mapSet, hk, ih]

theorem heapExt_refl (id : Int) (h : Heap) : HeapExt id h h :=
  ⟨le_refl _, fun _ _ => Or.inl rfl⟩

theorem voteStep_of_some (id thr : Int) (h : Heap) (e : Event) (r : Nat)
    (hv : e.Votes = some r) :
    voteStep id thr h e =
      if e.Valid = false ∧
          thr ≤ ((countVotes ((h.set r (mapSet (h.getD r []) id true)).getD r []) : Nat) : Int)
      then (if hashLoggable e then
          some (h.set r (mapSet (h.getD r []) id true), { e with Votes := some r, Valid := true })
        else none)
      else some (h.set r (mapSet (h.getD r []) id true), { e with Votes := some r }) := by
  simp [voteStep, hv]

theorem voteStep_of_none (id thr : Int) (h : Heap) (e : Event) (hv : e.Votes = none) :
    voteStep id thr h e =
      if e.Valid = false ∧
          thr ≤ ((countVotes (((h ++ [[]]).set h.length
            (mapSet ((h ++ [[]]).getD h.length []) id true)).getD h.length []) : Nat) : Int)
      then (if hashLoggable e then
          some ((h ++ [[]]).set h.length (mapSet ((h ++ [[]]).getD h.length []) id true),
            { e with Votes := some h.length, Valid := true })
        else none)
      else some ((h ++ [[]]).set h.length (mapSet ((h ++ [[]]).getD h.length []) id true),
        { e with Votes := some h.length }) := by
  simp [voteStep, hv]

/-- What one iteration of the voting loop does to an event whose reference is live in the
heap `h0` the call started from. -/
theorem voteStep_spec (id thr : Int) (h0 h : Heap) (e : Event)
    (hext : HeapExt id h0 h) (hr : ∀ r, e.Votes = some r → r < h0.length)
    (hl : hashLoggable e = true) :
    ∃ h2 e2, voteStep id thr h e = some (h2, e2) ∧ HeapExt id h0 h2 ∧
      e2 = { e with
        Votes := e2.Votes,
        Valid := e.Valid ||
          decide (thr ≤ ((countVotes (mapSet (votesOf h0 e) id true) : Nat) : Int)) } ∧
      (∀ r, e.Votes = some r → e2.Votes = some r) ∧
      (∃ r2, e2.Votes = some r2 ∧ r2 < h2.length ∧
        h2.getD r2 [] = mapSet (votesOf h0 e) id true) := by
  obtain ⟨hlen, hmaps⟩ := hext
  cases hv : e.Votes with
  | some r =>
    have hr0 : r < h0.length := hr r hv
    have hrh : r < h.length := lt_of_lt_of_le hr0 hlen
    have hcur : mapSet (h.getD r []) id true = mapSet (h0.getD r []) id true := by
      rcases hmaps r hr0 with h1 | h1
      · rw [h1]
      · rw [h1, mapSet_mapSet_self]
    have hvo : votesOf h0 e = h0.getD r [] := by simp [votesOf, hv]
    have hext2 : HeapExt id h0 (h.set r (mapSet (h.getD r []) id true)) := by
      refine ⟨by simpa using hlen, ?_⟩
      intro j hj
      by_cases hjr : j = r
      · subst hjr
        right
        rw [heap_getD_set_self _ _ _ hrh, hcur]
      · rw [heap_getD_set_ne _ _ _ _ hjr]
        exact hmaps j hj
    rw [voteStep_of_some id thr h e r hv, heap_getD_set_self _ _ _ hrh, hcur, ← hvo]
    rw [hcur, ← hvo] at hext2
    by_cases hc : e.Valid = false ∧
        thr ≤ ((countVotes (mapSet (votesOf h0 e) id true) : Nat) : Int)
    · rw [if_pos hc, if_pos hl]
      refine ⟨_, _, rfl, hext2, ?_, ?_, ?_⟩
      · cases e; simp_all
      · intro r' hr'; simp_all
      · exact ⟨r, rfl, by simpa using hrh, heap_getD_set_self _ _ _ hrh⟩
    · rw [if_neg hc]
      refine ⟨_, _, rfl, hext2, ?_, ?_, ?_⟩
      · cases e
        simp only [not_and_or] at hc
        rcases hc with hc | hc <;> simp_all
      · intro r' hr'; simp_all
      · exact ⟨r, rfl, by simpa using hrh, heap_getD_set_self _ _ _ hrh⟩
  | none =>
    have hvo : votesOf h0 e = [] := by simp [votesOf, hv]
    have hfresh : (h ++ [[]] : Heap).getD h.length [] = [] := by
      simp [List.getD_eq_getElem?_getD]
    have hlt : h.length < (h ++ [[]] : Heap).length := by simp
    have hext2 : HeapExt id h0 ((h ++ [[]] : Heap).set h.length (mapSet [] id true)) := by
      refine ⟨by simp; omega, ?_⟩
      intro j hj
      have hjh : j < h.length := lt_of_lt_of_le hj hlen
      rw [heap_getD_set_ne _ _ _ _ (Nat.ne_of_lt hjh), heap_getD_append_left _ _ _ hjh]
      exact hmaps j hj
    rw [voteStep_of_none id thr h e hv, hfresh, heap_getD_set_self _ _ _ hlt, hvo]
    by_cases hc : e.Valid = false ∧
        thr ≤ ((countVotes (mapSet ([] : VoteMap) id true) : Nat) : Int)
    · rw [if_pos hc, if_pos hl]
      refine ⟨_, _, rfl, hext2, ?_, ?_, ?_⟩
      · cases e; simp_all
      · intro r' hr'; simp_all
      · exact ⟨h.length, rfl, by simp, heap_getD_set_self _ _ _ hlt⟩
    · rw [if_neg hc]
      refine ⟨_, _, rfl, hext2, ?_, ?_, ?_⟩
      · cases e
        simp only [not_and_or] at hc
        rcases hc with hc | hc <;> simp_all
      · intro r' hr'; simp_all
      · exact ⟨h.length, rfl, by simp, heap_getD_set_self _ _ _ hlt⟩

/-- The voting loop returns, and treats every entry as `VotedAs` says. -/
theorem voteLoop_spec (id thr : Int) (h0 : Heap) (evs : List (String × Event)) :
    ∀ h : Heap, HeapExt id h0 h → heapOK h0 evs = true → hashesOK evs = true →
    ∃ h2 evs2, voteLoop id thr h evs = some (h2, evs2) ∧ HeapExt id h0 h2 ∧
      List.Forall₂ (VotedAs id thr h0) evs evs2 := by
  induction evs with
  | nil =>
    intro h hext _ _
    exact ⟨h, [], rfl, hext, List.Forall₂.nil⟩
  | cons kv rest ih =>
    intro h hext hok hl
    obtain ⟨k, e⟩ := kv
    simp only [heapOK, List.all_cons, Bool.and_eq_true] at hok
    simp only [hashesOK, List.all_cons, Bool.and_eq_true] at hl
    have hr : ∀ r, e.Votes = some r → r < h0.length := by
      intro r hv
      have := hok.1
      simp only [hv] at this
      exact of_decide_eq_true this
    obtain ⟨h1, e1, hstep, hext1, he1, hv1, _⟩ := voteStep_spec id thr h0 h e hext hr hl.1
    obtain ⟨h2, rest2, hloop, hext2, hall⟩ := ih h1 hext1 hok.2 hl.2
    refine ⟨h2, (k, e1) :: rest2, ?_, hext2, List.Forall₂.cons ⟨rfl, he1, hv1⟩ hall⟩
    simp [voteLoop, hstep, hloop]

/-- For a positive count `VirtualVoting` returns, keeps ID and balances, and treats every
entry of the store as `VotedAs` says, under the threshold it computed. -/
theorem virtualVoting_spec (h : Heap) (n : Node) (N : Int) (hN : 0 < N)
    (hok : heapOK h n.Events = true) (hl : hashesOK n.Events = true) :
    ∃ h2 n2, VirtualVoting h n N = some (h2, n2) ∧ HeapExt n.ID h h2 ∧
      n2.ID = n.ID ∧ n2.Balances = n.Balances ∧
      List.Forall₂ (VotedAs n.ID (threshold N) h) n.Events n2.Events := by
  obtain ⟨h2, evs2, hloop, hext, hall⟩ :=
    voteLoop_spec n.ID (threshold N) h n.Events h (heapExt_refl _ _) hok hl
  refine ⟨h2, { n with Events := evs2 }, ?_, hext, rfl, rfl, hall⟩
  have : ¬ N ≤ 0 := not_le.mpr hN
  simp [VirtualVoting, this, hloop]

/-! ## AddEvent -/

/-- C7. `AddEvent(e)` on a store without `e.Hash` stores `e` as given under that hash and
changes nothing else (other keys, ID, balances); on a store that has `e.Hash` it leaves
the whole node unchanged; so adding twice equals adding once. -/
theorem addEvent_insert_once (n : Node) (e : Event) :
    (mapGet n.Events e.Hash = none →
      mapGet (AddEvent n e).Events e.Hash = some e ∧
      (AddEvent n e).Events = n.Events ++ [(e.Hash, e)] ∧
      (∀ k, k ≠ e.Hash → mapGet (AddEvent n e).Events k = mapGet n.Events k) ∧
      (AddEvent n e).ID = n.ID ∧ (AddEvent n e).Balances = n.Balances) ∧
    (∀ old, mapGet n.Events e.Hash = some old → AddEvent n e = n) ∧
    AddEvent (AddEvent n e) e = AddEvent n e := by
  refine ⟨?_, ?_, ?_⟩
  · intro h
    have hh : mapHas n.Events e.Hash = false := (mapHas_false_iff _ _).2 h
    simp only [AddEvent, hh]
    refine ⟨mapGet_mapSet_self _ _ _, mapSet_of_absent _ _ _ h, ?_, rfl, rfl⟩
    intro k hk
    exact mapGet_mapSet_ne _ _ _ _ hk
  · intro old h
    simp [AddEvent, mapHas, h]
  · by_cases hh : mapHas n.Events e.Hash = true
    · simp [AddEvent, hh]
    · have h2 : mapHas (mapSet n.Events e.Hash e) e.Hash = true := by
        simp [mapHas, mapGet_mapSet_self]
      simp [AddEvent, hh, h2]

/-- Witness of C7 on a node that lacks the event and on one that holds a voted copy. -/
theorem addEvent_insert_once_witness :
    mapGet (emptyNode 1).Events mintAlice.Hash = none ∧
    mapGet (AddEvent (emptyNode 1) mintAlice).Events mintAlice.Hash = some mintAlice ∧
    AddEvent (nodeWithMint 1) mintAlice = nodeWithMint 1 :=
  ⟨by decide, ((addEvent_insert_once (emptyNode 1) mintAlice).1 (by decide)).1,
    (addEvent_insert_once (nodeWithMint 1) mintAlice).2.1 mintAlice (by decide)⟩

/-! ## VirtualVoting -/

/-- C1, as the code has it: for every total count `N` with `1 ≤ N < 2^62` (so that `2*N`
fits the 64-bit `int`), `VirtualVoting(N)` returns, keeps the keys of the store, and each
event is valid afterwards if and only if it was valid before or the number of true
entries of its vote set, with the caller's own true vote added, is at least
`floor(2N/3) + 1`; the threshold is 3 for `N = 4` and 1 for `N = 1`. -/
theorem virtualVoting_valid_iff (h : Heap) (n : Node) (N : Int)
    (hN : 1 ≤ N) (hN2 : N < 2 ^ 62)
    (hok : heapOK h n.Events = true) (hl : hashesOK n.Events = true) :
    (∃ h2 n2, VirtualVoting h n N = some (h2, n2) ∧
      List.Forall₂ (fun kv kv2 => kv2.1 = kv.1 ∧
        (kv2.2.Valid = true ↔ kv.2.Valid = true ∨
          2 * N / 3 + 1 ≤ ((countVotes (mapSet (votesOf h kv.2) n.ID true) : Nat) : Int)))
        n.Events n2.Events) ∧
    threshold 4 = 3 ∧ threshold 1 = 1 := by
  refine ⟨?_, by decide, by decide⟩
  obtain ⟨h2, n2, hrun, _, _, _, hall⟩ := virtualVoting_spec h n N (by omega) hok hl
  refine ⟨h2, n2, hrun, ?_⟩
  refine List.Forall₂.imp ?_ hall
  intro kv kv2 hv
  obtain ⟨hk, he, _⟩ := hv
  refine ⟨hk, ?_⟩
  rw [he, threshold_of_range N hN hN2]
  simp

/-- Witness of C1 on a node that holds one freshly created event, `N = 4`. -/
theorem virtualVoting_valid_iff_witness :
    (∃ h2 n2, VirtualVoting [[]] (nodeWithMint 1) 4 = some (h2, n2) ∧
      List.Forall₂ (fun kv kv2 => kv2.1 = kv.1 ∧
        (kv2.2.Valid = true ↔ kv.2.Valid = true ∨
          2 * 4 / 3 + 1 ≤
            ((countVotes (mapSet (votesOf [[]] kv.2) (nodeWithMint 1).ID true) : Nat) : Int)))
        (nodeWithMint 1).Events n2.Events) ∧
    threshold 4 = 3 ∧ threshold 1 = 1 :=
  virtualVoting_valid_iff [[]] (nodeWithMint 1) 4 (by decide) (by decide) (by decide)
    (by decide)

/-- C1 as stated fails for `N = 2^62`: `2*N` wraps to `-2^63`, the threshold is negative,
and a fresh event becomes valid on the caller's single vote, far below
`floor(2N/3) + 1`. -/
theorem virtualVoting_overflow_counterexample :
    (1 : Int) ≤ 2 ^ 62 ∧
    mintAlice.Valid = false ∧
    ¬ (2 * 2 ^ 62 / 3 + 1 ≤
      ((countVotes (mapSet (votesOf [[]] mintAlice) (nodeWithMint 1).ID true) : Nat) : Int)) ∧
    (VirtualVoting [[]] (nodeWithMint 1) (2 ^ 62)).map
      (fun r => r.2.Events.map (fun kv => (kv.1, kv.2.Valid))) = some [("a1b2c3", true)] := by
  decide

/-! ## Gossip and the vote map -/

/-- C2 at its failing input. Node 1 holds a fresh event whose (empty) vote map is at
address 0; after `Gossip` node 2 holds a copy with the same reference; node 1 then votes,
and the vote set of node 2's copy, empty before, holds node 1's vote. -/
theorem gossip_shares_vote_map :
    Gossip (nodeWithMint 1) [emptyNode 2] =
      some [{ ID := 2, Events := [("a1b2c3", mintAlice)], Balances := [] }] ∧
    votesOf [[]] mintAlice = [] ∧
    (VirtualVoting [[]] (nodeWithMint 1) 4).map (fun r => votesOf r.1 mintAlice) =
      some [(1, true)] := by
  decide

/-! ## CalculateGlobalConsensusTime: the collection loop and the median -/

theorem collectStep_inv (seen : List Event) (st : List (String × Event) × List Int)
    (e : Event) (hinv : CollectInv seen st) :
    CollectInv (seen ++ [e]) (collectStep st e) := by
  obtain ⟨h1, h2, h3, h4⟩ := hinv
  unfold collectStep
  by_cases hc : e.Valid = true ∧ mapHas st.1 e.Hash = false
  · rw [if_pos hc]
    have habs : mapGet st.1 e.Hash = none := (mapHas_false_iff _ _).1 hc.2
    have hnot : e.Hash ∉ mapKeys st.1 := (mapGet_none_iff _ _).1 habs
    have hset : mapSet st.1 e.Hash e = st.1 ++ [(e.Hash, e)] := mapSet_of_absent _ _ _ habs
    refine ⟨?_, ?_, ?_, ?_⟩
    · simp [hset, h1]
    · simp only [hset, mapKeys, List.map_append, List.map_cons, List.map_nil]
      refine List.Nodup.append h2 (List.nodup_singleton _) ?_
      intro k hk hk2
      simp only [List.mem_singleton] at hk2
      subst hk2
      exact hnot hk
    · intro kv hkv
      simp only [hset, List.mem_append, List.mem_singleton] at hkv
      rcases hkv with hkv | hkv
      · obtain ⟨a, b, c⟩ := h3 kv hkv
        exact ⟨a, b, List.mem_append_left _ c⟩
      · subst hkv
        exact ⟨rfl, hc.1, by simp⟩
    · intro x hx hxv
      simp only [hset, mapKeys, List.map_append, List.map_cons, List.map_nil, List.mem_append,
        List.mem_singleton] at hx ⊢
      rcases hx with hx | hx
      · exact Or.inl (h4 x hx hxv)
      · subst hx
        exact Or.inr rfl
  · rw [if_neg hc]
    refine ⟨h1, h2, ?_, ?_⟩
    · intro kv hkv
      obtain ⟨a, b, c⟩ := h3 kv hkv
      exact ⟨a, b, List.mem_append_left _ c⟩
    · intro x hx hxv
      simp only [List.mem_append, List.mem_singleton] at hx
      rcases hx with hx | hx
      · exact h4 x hx hxv
      · subst hx
        by_cases hh : mapHas st.1 x.Hash = false
        · exact absurd ⟨hxv, hh⟩ hc
        · simp only [Bool.not_eq_false] at hh
          exact (mapHas_iff _ _).1 hh

theorem collect_foldl_inv (es : List Event) :
    ∀ (seen : List Event) (st : List (String × Event) × List Int),
      CollectInv seen st → CollectInv (seen ++ es) (es.foldl collectStep st) := by
  induction es with
  | nil => intro seen st h; simpa using h
  | cons e rest ih =>
    intro seen st h
    have := ih (seen ++ [e]) (collectStep st e) (collectStep_inv seen st e h)
    simpa using this

theorem collect_inv (nodes : List Node) : CollectInv (allEvents nodes) (collect nodes) := by
  have h0 : CollectInv [] (([], []) : List (String × Event) × List Int) := by
    refine ⟨rfl, List.nodup_nil, ?_, ?_⟩
    · intro kv hkv; simp at hkv
    · intro e he; simp at he
  simpa [collect] using collect_foldl_inv (allEvents nodes) [] _ h0

theorem mem_allEvents (nodes : List Node) (e : Event) :
    e ∈ allEvents nodes ↔ ∃ n ∈ nodes, ∃ kv ∈ n.Events, kv.2 = e := by
  simp only [allEvents, List.mem_flatMap, List.mem_map]

/-- The hashes in `uniqueEvents` are exactly the hashes valid on at least one node. -/
theorem mem_uniqueEvents_keys (nodes : List Node) (hsh : String) :
    hsh ∈ mapKeys (uniqueEvents nodes) ↔
      ∃ n ∈ nodes, ∃ kv ∈ n.Events, kv.2.Valid = true ∧ kv.2.Hash = hsh := by
  obtain ⟨_, _, h3, h4⟩ := collect_inv nodes
  constructor
  · intro hk
    simp only [mapKeys, List.mem_map] at hk
    obtain ⟨kv, hkv, rfl⟩ := hk
    obtain ⟨a, b, c⟩ := h3 kv hkv
    obtain ⟨n, hn, kv2, hkv2, he⟩ := (mem_allEvents nodes kv.2).1 c
    exact ⟨n, hn, kv2, hkv2, by rw [he]; exact b, by rw [he]; exact a⟩
  · rintro ⟨n, hn, kv, hkv, hv, rfl⟩
    exact h4 kv.2 ((mem_allEvents nodes kv.2).2 ⟨n, hn, kv, hkv, rfl⟩) hv

theorem mapHas_uniqueEvents (nodes : List Node) (hsh : String) :
    mapHas (uniqueEvents nodes) hsh = true ↔
      ∃ n ∈ nodes, ∃ kv ∈ n.Events, kv.2.Valid = true ∧ kv.2.Hash = hsh := by
  rw [mapHas_iff, mem_uniqueEvents_keys]

theorem medianOfSorted_index (l : List Int) :
    medianOfSorted l = l.getD ((l.length - 1) / 2) 0 := by
  unfold medianOfSorted
  split
  · congr 1; omega
  · congr 1; omega

theorem uniqueEvents_length_pos (nodes : List Node)
    (hne : ∃ n ∈ nodes, ∃ kv ∈ n.Events, kv.2.Valid = true) :
    0 < (uniqueEvents nodes).length := by
  obtain ⟨n, hn, kv, hkv, hv⟩ := hne
  have hmem := (mem_uniqueEvents_keys nodes kv.2.Hash).2 ⟨n, hn, kv, hkv, hv, rfl⟩
  simp only [mapKeys, List.mem_map] at hmem
  obtain ⟨kv2, hkv2, _⟩ := hmem
  exact List.length_pos_of_mem hkv2

theorem allTimestamps_length (nodes : List Node) :
    (allTimestamps nodes).length = (uniqueEvents nodes).length := by
  obtain ⟨h1, _, _, _⟩ := collect_inv nodes
  show (collect nodes).2.length = (collect nodes).1.length
  rw [h1, List.length_map]

/-- The value the aggregator computes when some copy is valid. -/
theorem medianTime_of_valid (nodes : List Node)
    (hne : ∃ n ∈ nodes, ∃ kv ∈ n.Events, kv.2.Valid = true) :
    medianTime nodes =
      some ((sortTimestamps (allTimestamps nodes)).getD
        (((uniqueEvents nodes).length - 1) / 2) 0) := by
  have hpos := uniqueEvents_length_pos nodes hne
  have hlen := allTimestamps_length nodes
  have hne0 : ¬ (allTimestamps nodes).length = 0 := by omega
  simp only [medianTime, hne0, if_false]
  rw [medianOfSorted_index, sortTimestamps, List.length_insertionSort, hlen]

/-- C3. When at least one event copy is valid, the consensus timestamp is the element at
index `(k-1)/2` of the ascending sort of `allTimestamps`, where `allTimestamps` holds one
creation timestamp per entry of `uniqueEvents`, and `uniqueEvents` has exactly one entry
(a valid copy held by some node) per distinct hash valid on at least one node, `k` of them,
however many nodes hold each hash; timestamps `[5,1,9,3]` give 3. -/
theorem consensusTime_is_lower_median (nodes : List Node)
    (hne : ∃ n ∈ nodes, ∃ kv ∈ n.Events, kv.2.Valid = true) :
    (mapKeys (uniqueEvents nodes)).Nodup ∧
    (∀ hsh, hsh ∈ mapKeys (uniqueEvents nodes) ↔
      ∃ n ∈ nodes, ∃ kv ∈ n.Events, kv.2.Valid = true ∧ kv.2.Hash = hsh) ∧
    (∀ kv ∈ uniqueEvents nodes, kv.2.Hash = kv.1 ∧ kv.2.Valid = true ∧
      ∃ n ∈ nodes, ∃ kv2 ∈ n.Events, kv2.2 = kv.2) ∧
    allTimestamps nodes = (uniqueEvents nodes).map (fun kv => kv.2.Timestamp) ∧
    List.Sorted (fun a b => a ≤ b) (sortTimestamps (allTimestamps nodes)) ∧
    (sortTimestamps (allTimestamps nodes)).Perm (allTimestamps nodes) ∧
    0 < (uniqueEvents nodes).length ∧
    medianTime nodes =
      some ((sortTimestamps (allTimestamps nodes)).getD
        (((uniqueEvents nodes).length - 1) / 2) 0) ∧
    medianOfSorted (sortTimestamps [5, 1, 9, 3]) = 3 := by
  obtain ⟨h1, h2, h3, _⟩ := collect_inv nodes
  refine ⟨h2, mem_uniqueEvents_keys nodes, ?_, h1, ?_, ?_,
    uniqueEvents_length_pos nodes hne, medianTime_of_valid nodes hne, by decide⟩
  · intro kv hkv
    obtain ⟨a, b, c⟩ := h3 kv hkv
    exact ⟨a, b, (mem_allEvents nodes kv.2).1 c⟩
  · exact List.sorted_insertionSort _ _
  · exact List.perm_insertionSort _ _

/-- Witness of C3: four valid hashes with timestamps 5, 1, 9, 3 on two nodes, two of the
hashes held by both nodes; the consensus timestamp is 3. -/
theorem consensusTime_is_lower_median_witness :
    (uniqueEvents medianNodes).length = 4 ∧ medianTime medianNodes = some 3 :=
  ⟨by decide,
   (consensusTime_is_lower_median medianNodes
      ⟨medianNodeA, by decide, ("h5", stampedEvent "h5" 5), by decide, by decide⟩
    ).2.2.2.2.2.2.2.1.trans (by decide)⟩

theorem forall₂_map_self {α β : Type} (R : α → β → Prop) (f : α → β) (l : List α)
    (h : ∀ a ∈ l, R a (f a)) : List.Forall₂ R l (l.map f) := by
  induction l with
  | nil => exact List.Forall₂.nil
  | cons a rest ih =>
    exact List.Forall₂.cons (h a (List.mem_cons_self _ _))
      (ih (fun b hb => h b (List.mem_cons_of_mem _ hb)))

theorem stamp_fields (unique : List (String × Event)) (median : Int) (e : Event) :
    stamp unique median e = { e with ConsensusTime := (stamp unique median e).ConsensusTime } ∧
    (mapHas unique e.Hash = true → (stamp unique median e).ConsensusTime = median) ∧
    (mapHas unique e.Hash = false →
      (stamp unique median e).ConsensusTime = e.ConsensusTime) := by
  unfold stamp
  by_cases hu : mapHas unique e.Hash = true
  · by_cases hc : e.ConsensusTime = median
    · subst hc
      simp [hu]
    · simp [hu, hc]
  · simp [hu]

/-- C4. When at least one event copy is valid, `CalculateGlobalConsensusTime` keeps the
node list in step (same IDs, balances and store keys), changes no event field other than
`ConsensusTime`, sets `ConsensusTime` to the computed median on every copy whose hash is
valid on at least one node (whatever the copy's own validity and previous value), and
keeps `ConsensusTime` on every other copy. -/
theorem consensusTime_applied (nodes : List Node)
    (hne : ∃ n ∈ nodes, ∃ kv ∈ n.Events, kv.2.Valid = true) :
    ∃ median, medianTime nodes = some median ∧
      List.Forall₂ (fun n n2 =>
        n2.ID = n.ID ∧ n2.Balances = n.Balances ∧
        List.Forall₂ (fun kv kv2 =>
          kv2.1 = kv.1 ∧
          kv2.2 = { kv.2 with ConsensusTime := kv2.2.ConsensusTime } ∧
          ((∃ m ∈ nodes, ∃ x ∈ m.Events, x.2.Valid = true ∧ x.2.Hash = kv.2.Hash) →
            kv2.2.ConsensusTime = median) ∧
          ((¬ ∃ m ∈ nodes, ∃ x ∈ m.Events, x.2.Valid = true ∧ x.2.Hash = kv.2.Hash) →
            kv2.2.ConsensusTime = kv.2.ConsensusTime))
          n.Events n2.Events)
        nodes (CalculateGlobalConsensusTime nodes) := by
  have hmed := medianTime_of_valid nodes hne
  refine ⟨_, hmed, ?_⟩
  simp only [CalculateGlobalConsensusTime, hmed]
  refine forall₂_map_self _ _ _ ?_
  intro n _
  refine ⟨rfl, rfl, ?_⟩
  simp only [stampNode]
  refine forall₂_map_self _ _ _ ?_
  intro kv _
  obtain ⟨hf, hin, hout⟩ := stamp_fields (uniqueEvents nodes)
    ((sortTimestamps (allTimestamps nodes)).getD (((uniqueEvents nodes).length - 1) / 2) 0)
    kv.2
  refine ⟨rfl, hf, ?_, ?_⟩
  · intro hv
    exact hin ((mapHas_uniqueEvents nodes kv.2.Hash).2 hv)
  · intro hv
    apply hout
    cases hh : mapHas (uniqueEvents nodes) kv.2.Hash with
    | false => rfl
    | true => exact absurd ((mapHas_uniqueEvents nodes kv.2.Hash).1 hh) hv

/-- Witness of C4: the copy of `h5` on the second node, not valid itself and stamped 42
before, gets the median 5; `h7`, valid nowhere, keeps 9. -/
theorem consensusTime_applied_witness :
    (CalculateGlobalConsensusTime stampNodes).length = 2 ∧
    (CalculateGlobalConsensusTime stampNodes).map
      (fun n => n.Events.map (fun kv => (kv.1, kv.2.ConsensusTime))) =
      [[("h5", 5)], [("h5", 5), ("h7", 9)]] := by
  refine ⟨?_, by decide⟩
  obtain ⟨_, _, hall⟩ := consensusTime_applied stampNodes
    ⟨stampNodeA, by decide, ("h5", stampedEvent "h5" 5), by decide, by decide⟩
  exact hall.length_eq.symm

/-! ## ExecuteTransactions -/

theorem strLess_iff (a b : String) : strLess a b = true ↔ a < b := by
  unfold strLess
  rw [decide_eq_true_iff]
  exact String.lt_iff_toList_lt.symm

theorem txLess_iff (a b : Event) :
    txLess a b = true ↔
      a.ConsensusTime < b.ConsensusTime ∨
        (a.ConsensusTime = b.ConsensusTime ∧ a.Hash < b.Hash) := by
  unfold txLess
  by_cases hc : a.ConsensusTime = b.ConsensusTime
  · simp [hc, strLess_iff]
  · simp [hc]

theorem txLess_false_iff (a b : Event) :
    txLess b a = false ↔
      a.ConsensusTime < b.ConsensusTime ∨
        (a.ConsensusTime = b.ConsensusTime ∧ a.Hash ≤ b.Hash) := by
  rw [← Bool.not_eq_true, txLess_iff]
  constructor
  · intro h
    rcases lt_trichotomy a.ConsensusTime b.ConsensusTime with h1 | h1 | h1
    · exact Or.inl h1
    · refine Or.inr ⟨h1, ?_⟩
      by_contra h2
      exact h (Or.inr ⟨h1.symm, not_le.mp h2⟩)
    · exact absurd (Or.inl h1) h
  · rintro (h | ⟨h1, h2⟩) (h3 | ⟨h3, h4⟩)
    · exact absurd h (not_lt.mpr (le_of_lt h3))
    · rw [h3] at h; exact lt_irrefl _ h
    · rw [h1] at h3; exact lt_irrefl _ h3
    · exact absurd h4 (not_lt.mpr h2)

theorem txLe_total (a b : Event) : txLess b a = false ∨ txLess a b = false := by
  rw [txLess_false_iff, txLess_false_iff]
  rcases lt_trichotomy a.ConsensusTime b.ConsensusTime with h | h | h
  · exact Or.inl (Or.inl h)
  · rcases le_total a.Hash b.Hash with h2 | h2
    · exact Or.inl (Or.inr ⟨h, h2⟩)
    · exact Or.inr (Or.inr ⟨h.symm, h2⟩)
  · exact Or.inr (Or.inl h)

theorem txLe_trans (a b c : Event) (h1 : txLess b a = false) (h2 : txLess c b = false) :
    txLess c a = false := by
  rw [txLess_false_iff] at h1 h2 ⊢
  rcases h1 with h1 | ⟨h1, h1h⟩ <;> rcases h2 with h2 | ⟨h2, h2h⟩
  · exact Or.inl (lt_trans h1 h2)
  · exact Or.inl (h2 ▸ h1)
  · exact Or.inl (h1 ▸ h2)
  · exact Or.inr ⟨h1.trans h2, le_trans h1h h2h⟩

theorem sortTransactions_sorted (txs : List Event) :
    List.Sorted (fun a b => txLess b a = false) (sortTransactions txs) := by
  haveI : IsTotal Event (fun a b => txLess b a = false) := ⟨txLe_total⟩
  haveI : IsTrans Event (fun a b => txLess b a = false) := ⟨txLe_trans⟩
  exact List.sorted_insertionSort _ _

theorem sortTransactions_perm (txs : List Event) : (sortTransactions txs).Perm txs :=
  List.perm_insertionSort _ _

theorem foldlM_applyTx (l : List Event) :
    ∀ b : List (String × Int), (∀ e ∈ l, hashLoggable e = true) →
      l.foldlM applyTx b = some (l.foldl transfer b) := by
  induction l with
  | nil => intro b _; rfl
  | cons e rest ih =>
    intro b h
    have he : hashLoggable e = true := h e (List.mem_cons_self _ _)
    rw [List.foldlM_cons]
    simp only [applyTx, he, if_true, List.foldl_cons]
    exact ih _ (fun x hx => h x (List.mem_cons_of_mem _ hx))

/-- The outcome of `ExecuteTransactions` when the selected events can be logged: the
balances are folded over the sorted selection, nothing else changes. -/
theorem executeTransactions_eq (n : Node)
    (hl : (transactionsToExecute n).all hashLoggable = true) :
    ExecuteTransactions n =
      some { n with
        Balances := (sortTransactions (transactionsToExecute n)).foldl transfer n.Balances } := by
  have hmem : ∀ e ∈ sortTransactions (transactionsToExecute n), hashLoggable e = true := by
    intro e he
    exact (List.all_eq_true.1 hl) e ((sortTransactions_perm _).mem_iff.1 he)
  unfold ExecuteTransactions
  by_cases h0 : (transactionsToExecute n).length = 0
  · have : transactionsToExecute n = [] := List.length_eq_zero.1 h0
    simp [this, sortTransactions]
  · simp only [h0, if_false, foldlM_applyTx _ _ hmem]

theorem balanceOf_mapSet (b : List (String × Int)) (k j : String) (v : Int) :
    balanceOf (mapSet b k v) j = if j = k then v else balanceOf b j := by
  unfold balanceOf
  by_cases hj : j = k
  · subst hj
    simp [mapGet_mapSet_self]
  · simp [mapGet_mapSet_ne _ _ _ _ hj, hj]

theorem transfer_mint (b : List (String × Int)) (e : Event) (k : String)
    (hs : e.Sender = "") :
    balanceOf (transfer b e) k =
      if k = e.Receiver then wrap64 (balanceOf b e.Receiver + e.Amount)
      else balanceOf b k := by
  simp only [transfer, hs, if_true, balanceOf_mapSet]

theorem transfer_debit_credit (b : List (String × Int)) (e : Event) (k : String)
    (hs : e.Sender ≠ "") (hb : e.Amount ≤ balanceOf b e.Sender) :
    balanceOf (transfer b e) k =
      if k = e.Receiver then
        wrap64 ((if e.Receiver = e.Sender then wrap64 (balanceOf b e.Sender - e.Amount)
          else balanceOf b e.Receiver) + e.Amount)
      else if k = e.Sender then wrap64 (balanceOf b e.Sender - e.Amount)
      else balanceOf b k := by
  have hb2 : balanceOf b e.Sender ≥ e.Amount := hb
  simp only [transfer, hs, if_false, hb2, if_true, balanceOf_mapSet]

theorem transfer_rejected (b : List (String × Int)) (e : Event)
    (hs : e.Sender ≠ "") (hb : balanceOf b e.Sender < e.Amount) : transfer b e = b := by
  have hb2 : ¬ balanceOf b e.Sender ≥ e.Amount := not_le.mpr hb
  simp only [transfer, hs, if_false, hb2]

/-- C5. `ExecuteTransactions` returns; the sequence it applies is a permutation of the
events of the store with `Valid = true` and `ConsensusTime > 0` (each exactly once), in
ascending order of (`ConsensusTime`, then `Hash`); the final balances are the left fold of
the single-transfer step over that sequence; ID and store are unchanged. The step mints
when the sender is empty, debits then credits when the sender's balance covers the amount,
and otherwise leaves the balances as they are. -/
theorem executeTransactions_sorted_fold (n : Node)
    (hl : (transactionsToExecute n).all hashLoggable = true) :
    (sortTransactions (transactionsToExecute n)).Perm
      ((n.Events.map Prod.snd).filter
        (fun e => e.Valid && decide (e.ConsensusTime > 0))) ∧
    List.Sorted
      (fun a b => a.ConsensusTime < b.ConsensusTime ∨
        (a.ConsensusTime = b.ConsensusTime ∧ a.Hash ≤ b.Hash))
      (sortTransactions (transactionsToExecute n)) ∧
    ExecuteTransactions n =
      some { ID := n.ID, Events := n.Events,
             Balances :=
               (sortTransactions (transactionsToExecute n)).foldl transfer n.Balances } ∧
    (∀ b e k, e.Sender = "" →
      balanceOf (transfer b e) k =
        if k = e.Receiver then wrap64 (balanceOf b e.Receiver + e.Amount)
        else balanceOf b k) ∧
    (∀ b e k, e.Sender ≠ "" → e.Amount ≤ balanceOf b e.Sender →
      balanceOf (transfer b e) k =
        if k = e.Receiver then
          wrap64 ((if e.Receiver = e.Sender then wrap64 (balanceOf b e.Sender - e.Amount)
            else balanceOf b e.Receiver) + e.Amount)
        else if k = e.Sender then wrap64 (balanceOf b e.Sender - e.Amount)
        else balanceOf b k) ∧
    (∀ b e, e.Sender ≠ "" → balanceOf b e.Sender < e.Amount → transfer b e = b) := by
  refine ⟨sortTransactions_perm _, ?_, executeTransactions_eq n hl,
    transfer_mint, transfer_debit_credit, transfer_rejected⟩
  exact List.Pairwise.imp (fun {a b} h => (txLess_false_iff a b).1 h)
    (sortTransactions_sorted _)

/-- Witness of C5 on a store that enumerates the later event first. -/
theorem executeTransactions_sorted_fold_witness :
    sortTransactions (transactionsToExecute overdraftNode) = [overdraft, mintCarol] ∧
    ExecuteTransactions overdraftNode =
      some { ID := 1, Events := overdraftNode.Events,
             Balances := [overdraft, mintCarol].foldl transfer [("Alice", 10)] } :=
  ⟨by decide,
   (executeTransactions_sorted_fold overdraftNode (by decide)).2.2.1.trans (by decide)⟩

/-- C6. Let the sorted selection be `pre ++ e :: post`, where `e` has a non-empty sender
whose balance, after `pre` has been applied, is smaller than the amount. Then applying
`e` leaves the balance map as it is, and `ExecuteTransactions` returns with the balances
obtained by applying `post` to the balances left by `pre`: the call goes on after the
rejection. -/
theorem executeTransactions_rejects_overdraft (n : Node) (pre post : List Event) (e : Event)
    (hl : (transactionsToExecute n).all hashLoggable = true)
    (hsplit : sortTransactions (transactionsToExecute n) = pre ++ e :: post)
    (hs : e.Sender ≠ "")
    (hb : balanceOf (pre.foldl transfer n.Balances) e.Sender < e.Amount) :
    transfer (pre.foldl transfer n.Balances) e = pre.foldl transfer n.Balances ∧
    applyTx (pre.foldl transfer n.Balances) e = some (pre.foldl transfer n.Balances) ∧
    ExecuteTransactions n =
      some { ID := n.ID, Events := n.Events,
             Balances := post.foldl transfer (pre.foldl transfer n.Balances) } := by
  have hrej := transfer_rejected _ e hs hb
  have hlog : hashLoggable e = true := by
    apply (List.all_eq_true.1 hl) e
    apply (sortTransactions_perm _).mem_iff.1
    rw [hsplit]
    simp
  refine ⟨hrej, by simp [applyTx, hlog, hrej], ?_⟩
  rw [executeTransactions_eq n hl, hsplit, List.foldl_append, List.foldl_cons, hrej]

/-- Witness of C6: Alice has 10, the transfer of 20 is rejected, the mint to Carol that
follows is applied, and Alice still has 10. -/
theorem executeTransactions_rejects_overdraft_witness :
    balanceOf overdraftNode.Balances "Alice" = 10 ∧ overdraft.Amount = 20 ∧
    ExecuteTransactions overdraftNode =
      some { ID := 1, Events := overdraftNode.Events,
             Balances := [("Alice", 10), ("Carol", 5)] } :=
  ⟨by decide, by decide,
   (executeTransactions_rejects_overdraft overdraftNode [] [mintCarol] overdraft
      (by decide) (by decide) (by decide) (by decide)).2.2.trans (by decide)⟩

/-! ## Gossip -/

theorem received_nil (p : Node) : Received [] p p := by
  refine ⟨rfl, rfl, ⟨[], by simp, by simp⟩, ?_⟩
  intro k
  cases mapGet p.Events k <;> rfl

theorem receive_spec (p : Node) (e : Event) (hl : hashLoggable e = true) :
    ∃ p1, receive p e = some p1 ∧ Received [e] p p1 := by
  unfold receive
  by_cases hh : mapHas p.Events e.Hash = true
  · refine ⟨p, by simp [hh], rfl, rfl, ⟨[], by simp, by simp⟩, ?_⟩
    intro k
    cases hg : mapGet p.Events k with
    | some v => rfl
    | none =>
      have hne : ¬ e.Hash = k := by
        intro hek
        rw [← hek] at hg
        simp [mapHas, hg] at hh
      simp [Option.orElse, hne]
  · have habs : mapGet p.Events e.Hash = none := by
      cases hg : mapGet p.Events e.Hash with
      | none => rfl
      | some v => simp [mapHas, hg] at hh
    have hset := mapSet_of_absent p.Events e.Hash e habs
    refine ⟨{ p with Events := mapSet p.Events e.Hash e }, by simp [hh, hl], rfl, rfl,
      ⟨[(e.Hash, e)], hset, by simp⟩, ?_⟩
    intro k
    show mapGet (mapSet p.Events e.Hash e) k = _
    by_cases hek : e.Hash = k
    · subst hek
      rw [mapGet_mapSet_self, habs]
      simp [Option.orElse]
    · rw [mapGet_mapSet_ne _ _ _ _ (fun h => hek h.symm)]
      cases mapGet p.Events k <;> simp [Option.orElse, hek]

theorem received_trans (e : Event) (rest : List Event) (p p1 p2 : Node)
    (h1 : Received [e] p p1) (h2 : Received rest p1 p2) : Received (e :: rest) p p2 := by
  obtain ⟨a1, b1, ⟨add1, c1, d1⟩, e1⟩ := h1
  obtain ⟨a2, b2, ⟨add2, c2, d2⟩, e2⟩ := h2
  refine ⟨a2.trans a1, b2.trans b1, ⟨add1 ++ add2, by rw [c2, c1, List.append_assoc], ?_⟩, ?_⟩
  · intro kv hkv
    rcases List.mem_append.1 hkv with hkv | hkv
    · obtain ⟨x, y⟩ := d1 kv hkv
      exact ⟨x, by simp at y; simp [y]⟩
    · obtain ⟨x, y⟩ := d2 kv hkv
      exact ⟨x, List.mem_cons_of_mem _ y⟩
  · intro k
    rw [e2 k, e1 k]
    cases mapGet p.Events k with
    | some v => rfl
    | none =>
      by_cases hek : e.Hash = k
      · simp [Option.orElse, List.find?_cons, hek]
      · simp [Option.orElse, List.find?_cons, hek]

theorem foldlM_receive_spec (es : List Event) :
    ∀ p : Node, (∀ e ∈ es, hashLoggable e = true) →
      ∃ p2, es.foldlM receive p = some p2 ∧ Received es p p2 := by
  induction es with
  | nil => intro p _; exact ⟨p, rfl, received_nil p⟩
  | cons e rest ih =>
    intro p hl
    obtain ⟨p1, hr, h1⟩ := receive_spec p e (hl e (List.mem_cons_self _ _))
    obtain ⟨p2, hf, h2⟩ := ih p1 (fun x hx => hl x (List.mem_cons_of_mem _ hx))
    refine ⟨p2, ?_, received_trans e rest p p1 p2 h1 h2⟩
    rw [List.foldlM_cons, hr]
    exact hf

theorem find_by_hash_of_keyed (evs : List (String × Event)) (k : String)
    (hkey : keyedByHash evs = true) :
    (evs.map Prod.snd).find? (fun e => decide (e.Hash = k)) = mapGet evs k := by
  induction evs with
  | nil => rfl
  | cons kv rest ih =>
    obtain ⟨k1, e⟩ := kv
    simp only [keyedByHash, List.all_cons, Bool.and_eq_true, decide_eq_true_eq] at hkey
    have ih2 := ih (by simpa [keyedByHash] using hkey.2)
    have h1 : e.Hash = k1 := hkey.1
    by_cases hk : k1 = k
    · simp [List.find?_cons, mapGet, h1, hk]
    · simp [List.find?_cons, mapGet, h1, hk, ih2]

theorem mapM_forall₂ {α β : Type} (f : α → Option β) (R : α → β → Prop) (l : List α)
    (h : ∀ a ∈ l, ∃ b, f a = some b ∧ R a b) :
    ∃ l2, l.mapM f = some l2 ∧ List.Forall₂ R l l2 := by
  induction l with
  | nil => exact ⟨[], by rw [List.mapM_nil]; rfl, List.Forall₂.nil⟩
  | cons a rest ih =>
    obtain ⟨b, hb, hr⟩ := h a (List.mem_cons_self _ _)
    obtain ⟨bs, hbs, hrs⟩ := ih (fun x hx => h x (List.mem_cons_of_mem _ hx))
    refine ⟨b :: bs, ?_, List.Forall₂.cons hr hrs⟩
    rw [List.mapM_cons, hb, hbs]
    rfl

/-- The outcome of one `Gossip` call on any peer list: a peer with the sender's ID is left
as it is, every other peer receives the sender's events. -/
theorem gossip_spec (n : Node) (peers : List Node) (hl : hashesOK n.Events = true) :
    ∃ peers2, Gossip n peers = some peers2 ∧
      List.Forall₂ (fun p p2 =>
        p ∈ peers ∧
        (p.ID = n.ID → p2 = p) ∧
        (p.ID ≠ n.ID → Received (n.Events.map Prod.snd) p p2)) peers peers2 := by
  unfold Gossip
  apply mapM_forall₂
  intro p hp
  by_cases hid : p.ID = n.ID
  · exact ⟨p, by simp [gossipTo, hid], hp, fun _ => rfl, fun h => absurd hid h⟩
  · have hl2 : ∀ e ∈ n.Events.map Prod.snd, hashLoggable e = true := by
      intro e he
      obtain ⟨kv, hkv, rfl⟩ := List.mem_map.1 he
      exact (List.all_eq_true.1 hl) kv hkv
    obtain ⟨p2, hf, hr⟩ := foldlM_receive_spec (n.Events.map Prod.snd) p hl2
    exact ⟨p2, by simp [gossipTo, hid, hf], hp, fun h => absurd h hid, fun _ => hr⟩

/-- C9. In a node list with pairwise distinct IDs, the call `n.Gossip(nodes)` of a node `n`
of the list (store keyed by hash) returns; `n` ends as it was; every other node keeps its
ID and balances, keeps its previous entries in place and unchanged, gains for each hash of
`n`'s store that it lacked an entry equal to `n`'s copy (all fields, the vote reference
included), gains nothing else, and so holds every hash `n` holds. -/
theorem gossip_fanout (nodes : List Node) (n : Node) (hn : n ∈ nodes)
    (hids : (nodes.map (fun p => p.ID)).Nodup)
    (hkey : keyedByHash n.Events = true) (hl : hashesOK n.Events = true) :
    ∃ nodes2, Gossip n nodes = some nodes2 ∧
      List.Forall₂ (fun p p2 =>
        p2.ID = p.ID ∧ p2.Balances = p.Balances ∧
        (p = n → p2 = n) ∧
        (p ≠ n →
          (∃ added, p2.Events = p.Events ++ added) ∧
          (∀ k old, mapGet p.Events k = some old → mapGet p2.Events k = some old) ∧
          (∀ k, mapGet p.Events k = none → mapGet p2.Events k = mapGet n.Events k) ∧
          (∀ k, mapHas n.Events k = true → mapHas p2.Events k = true)))
        nodes nodes2 := by
  obtain ⟨nodes2, hrun, hall⟩ := gossip_spec n nodes hl
  refine ⟨nodes2, hrun, List.Forall₂.imp ?_ hall⟩
  intro p p2 ⟨hp, hsame, hother⟩
  by_cases hid : p.ID = n.ID
  · have hpn : p = n := List.inj_on_of_nodup_map hids hp hn hid
    have h2 := hsame hid
    subst h2
    exact ⟨rfl, rfl, fun _ => hpn, fun h => absurd hpn h⟩
  · obtain ⟨a, b, ⟨added, c, _⟩, d⟩ := hother hid
    refine ⟨a, b, fun h => absurd (by rw [h]) hid, fun _ => ⟨⟨added, c⟩, ?_, ?_, ?_⟩⟩
    · intro k old hk
      rw [d k, hk]
      rfl
    · intro k hk
      rw [d k, hk, find_by_hash_of_keyed _ _ hkey]
      rfl
    · intro k hk
      unfold mapHas at hk ⊢
      rw [d k, find_by_hash_of_keyed _ _ hkey]
      cases mapGet p.Events k with
      | some v => rfl
      | none => exact hk

/-- Witness of C9: the sender is unchanged, the holder keeps its own (not valid) copy of
the shared hash and gains the other event, the empty node gains both as the sender has
them. -/
theorem gossip_fanout_witness :
    (∃ nodes2, Gossip senderNode gossipNodes = some nodes2 ∧ nodes2.length = 3) ∧
    Gossip senderNode gossipNodes =
      some [senderNode,
        { ID := 2, Balances := [],
          Events := [("a1b2c3", mintAlice), ("bbbbbb", mintCarol)] },
        { ID := 3, Balances := [], Events := senderNode.Events }] := by
  refine ⟨?_, by decide⟩
  obtain ⟨nodes2, hrun, hall⟩ :=
    gossip_fanout gossipNodes senderNode (by decide) (by decide) (by decide) (by decide)
  exact ⟨nodes2, hrun, hall.length_eq.symm⟩

/-! ## The gossip round -/

theorem forall₂_getElem? {α β : Type} {R : α → β → Prop} {l1 : List α} {l2 : List β}
    (h : List.Forall₂ R l1 l2) :
    ∀ (j : Nat) (a : α) (b : β), l1[j]? = some a → l2[j]? = some b → R a b := by
  induction h with
  | nil => intro j a b ha; simp at ha
  | cons hab _ ih =>
    intro j a b ha hb
    cases j with
    | zero =>
      simp at ha hb
      subst ha hb
      exact hab
    | succ j =>
      simp at ha hb
      exact ih j a b ha hb

theorem mem_mapKeys_iff {κ α : Type} [DecidableEq κ] (m : List (κ × α)) (k : κ) :
    k ∈ mapKeys m ↔ ∃ v, mapGet m k = some v := by
  have h := mapGet_none_iff m k
  cases hg : mapGet m k with
  | none => simp [hg] at h; simp [h]
  | some v => simp [hg] at h; simp [h]

theorem grown_of_received (n q q2 : Node) (hid : q.ID ≠ n.ID)
    (hkey : keyedByHash n.Events = true) (hl : hashesOK n.Events = true)
    (hr : Received (n.Events.map Prod.snd) q q2) : Grown n q q2 := by
  obtain ⟨a, _, ⟨added, c, d⟩, e⟩ := hr
  have hsrc : ∀ kv ∈ added, kv ∈ n.Events := by
    intro kv hkv
    obtain ⟨h1, h2⟩ := d kv hkv
    obtain ⟨kv0, hkv0, h3⟩ := List.mem_map.1 h2
    have h4 : kv0.2.Hash = kv0.1 := by
      have := (List.all_eq_true.1 hkey) kv0 hkv0
      simpa using this
    have : kv0 = kv := by
      apply Prod.ext
      · rw [← h4, h3, h1]
      · exact h3
    rw [← this]
    exact hkv0
  refine ⟨a, ?_, ?_, ?_, ?_, ?_, fun h => absurd h hid⟩
  · intro k hk
    simp only [c, mapKeys, List.map_append, List.mem_append]
    exact Or.inl hk
  · intro hq
    simp only [keyedByHash, List.all_eq_true, c, List.mem_append] at hq ⊢
    intro kv hkv
    rcases hkv with hkv | hkv
    · exact hq kv hkv
    · simpa using (d kv hkv).1
  · intro hq
    simp only [hashesOK, List.all_eq_true, c, List.mem_append] at hq hl ⊢
    intro kv hkv
    rcases hkv with hkv | hkv
    · exact hq kv hkv
    · exact hl kv (hsrc kv hkv)
  · intro k hk
    simp only [c, mapKeys, List.map_append, List.mem_append] at hk
    rcases hk with hk | hk
    · exact Or.inl hk
    · right
      obtain ⟨kv, hkv, rfl⟩ := List.mem_map.1 hk
      exact List.mem_map.2 ⟨kv, hsrc kv hkv, rfl⟩
  · intro _ k hk
    obtain ⟨v, hv⟩ := (mem_mapKeys_iff _ _).1 hk
    rw [mem_mapKeys_iff, e k, find_by_hash_of_keyed _ _ hkey, hv]
    cases mapGet q.Events k with
    | some w => exact ⟨w, rfl⟩
    | none => exact ⟨v, rfl⟩

theorem grown_same (n q : Node) (hid : q.ID = n.ID) : Grown n q q :=
  ⟨rfl, fun _ h => h, fun h => h, fun h => h, fun _ h => Or.inl h,
    fun h => absurd hid h, fun _ => rfl⟩

/-- Every peer of a `Gossip` call is `Grown`. -/
theorem gossip_grown (n : Node) (peers : List Node)
    (hkey : keyedByHash n.Events = true) (hl : hashesOK n.Events = true) :
    ∃ peers2, Gossip n peers = some peers2 ∧ List.Forall₂ (Grown n) peers peers2 := by
  obtain ⟨peers2, hrun, hall⟩ := gossip_spec n peers hl
  refine ⟨peers2, hrun, List.Forall₂.imp ?_ hall⟩
  intro q q2 ⟨_, hsame, hother⟩
  by_cases hid : q.ID = n.ID
  · rw [hsame hid]
    exact grown_same n q hid
  · exact grown_of_received n q q2 hid hkey hl (hother hid)

theorem forall₂_map_eq {α β : Type} (f : α → β) {l1 l2 : List α}
    (h : List.Forall₂ (fun a b => f b = f a) l1 l2) : l2.map f = l1.map f := by
  induction h with
  | nil => rfl
  | cons hab _ ih => simp [hab, ih]

/-- One turn of the gossip round keeps the round invariant and moves it one index on. -/
theorem gossipTurn_inv (nodes ns : List Node) (i : Nat) (hi : i < nodes.length)
    (hids : (nodes.map (fun q => q.ID)).Nodup) (hinv : RoundInv nodes i ns) :
    ∃ ns2, gossipTurn ns i = some ns2 ∧ RoundInv nodes (i + 1) ns2 := by
  obtain ⟨hid, hpt, hdone⟩ := hinv
  have hlen : ns.length = nodes.length := by
    have := congrArg List.length hid
    simpa using this
  have hi2 : i < ns.length := by omega
  have hn : ns[i]? = some ns[i] := List.getElem?_eq_getElem hi2
  have hp : nodes[i]? = some nodes[i] := List.getElem?_eq_getElem hi
  obtain ⟨hsub, hkey, hl, _⟩ := hpt i nodes[i] ns[i] hp hn
  obtain ⟨ns2, hrun, hall⟩ := gossip_grown ns[i] ns hkey hl
  have hlen2 : ns.length = ns2.length := hall.length_eq
  have hnodup : (ns.map (fun q => q.ID)).Nodup := by rw [hid]; exact hids
  have hback : ∀ (j : Nat) (q2 : Node), ns2[j]? = some q2 →
      ∃ q, ns[j]? = some q ∧ Grown ns[i] q q2 := by
    intro j q2 hq2
    have hj : j < ns.length := by
      rw [hlen2]
      exact (List.getElem?_eq_some.1 hq2).1
    exact ⟨ns[j], List.getElem?_eq_getElem hj,
      forall₂_getElem? hall j ns[j] q2 (List.getElem?_eq_getElem hj) hq2⟩
  refine ⟨ns2, ?_, ?_, ?_, ?_⟩
  · simp only [gossipTurn, List.get?_eq_getElem?, hn]
    exact hrun
  · rw [← hid]
    exact forall₂_map_eq (fun q => q.ID) (List.Forall₂.imp (fun {a b} h => h.1) hall)
  · intro j p q2 hpj hq2
    obtain ⟨q, hq, hg⟩ := hback j q2 hq2
    obtain ⟨s1, s2, s3, s4⟩ := hpt j p q hpj hq
    obtain ⟨_, g2, g3, g4, g5, _, _⟩ := hg
    refine ⟨fun k hk => g2 k (s1 k hk), g3 s2, g4 s3, ?_⟩
    intro k hk
    rcases g5 k hk with h1 | h1
    · exact s4 k h1
    · exact (hpt i nodes[i] ns[i] hp hn).2.2.2 k h1
  · intro t p q2 ht hpt2 hq2 k hk
    obtain ⟨j, hj⟩ := List.mem_iff_getElem?.1 hq2
    obtain ⟨q, hq, hg⟩ := hback j q2 hj
    have hqmem : q ∈ ns := List.mem_iff_getElem?.2 ⟨j, hq⟩
    obtain ⟨_, g2, _, _, _, g6, g7⟩ := hg
    by_cases hti : t < i
    · exact g2 k (hdone t p q hti hpt2 hqmem k hk)
    · have hte : t = i := by omega
      subst hte
      have hpe : p = nodes[t] := by
        rw [hp] at hpt2
        exact (Option.some.inj hpt2).symm
      subst hpe
      have hkn : k ∈ mapKeys ns[t].Events := hsub k hk
      by_cases hqid : q.ID = ns[t].ID
      · have hqe : q = ns[t] :=
          List.inj_on_of_nodup_map hnodup hqmem (List.getElem_mem _) hqid
        rw [g7 hqid, hqe]
        exact hkn
      · exact g6 hqid k hkn

theorem roundInv_start (nodes : List Node)
    (hkey : ∀ n ∈ nodes, keyedByHash n.Events = true)
    (hl : ∀ n ∈ nodes, hashesOK n.Events = true) : RoundInv nodes 0 nodes := by
  refine ⟨rfl, ?_, ?_⟩
  · intro j p q hp hq
    rw [hp] at hq
    have hpq : p = q := Option.some.inj hq
    subst hpq
    have hmem : p ∈ nodes := List.mem_iff_getElem?.2 ⟨j, hp⟩
    exact ⟨fun _ h => h, hkey p hmem, hl p hmem, fun k hk => ⟨p, hmem, hk⟩⟩
  · intro t p q ht
    exact absurd ht (Nat.not_lt_zero t)

theorem gossipPrefix_inv (nodes : List Node)
    (hids : (nodes.map (fun q => q.ID)).Nodup) (h0 : RoundInv nodes 0 nodes) :
    ∀ i, i ≤ nodes.length →
      ∃ ns, (List.range i).foldlM gossipTurn nodes = some ns ∧ RoundInv nodes i ns := by
  intro i
  induction i with
  | zero => intro _; exact ⟨nodes, rfl, h0⟩
  | succ i ih =>
    intro hi
    obtain ⟨ns, hrun, hinv⟩ := ih (by omega)
    obtain ⟨ns2, hturn, hinv2⟩ := gossipTurn_inv nodes ns i (by omega) hids hinv
    refine ⟨ns2, ?_, hinv2⟩
    rw [List.range_succ, List.foldlM_append, hrun]
    simp only [List.foldlM_cons, List.foldlM_nil, Option.some_bind, Option.bind_eq_bind]
    rw [hturn]
    rfl

/-- C10. In a node list with pairwise distinct IDs (stores keyed by hash), one full gossip
round, in which each node in turn calls `Gossip(nodes)`, returns; the nodes keep their IDs
and order, every store is still keyed by hash, and every store holds the same set of
hashes: the union of the hash sets of all the stores before the round. -/
theorem gossipRound_union (nodes : List Node)
    (hids : (nodes.map (fun q => q.ID)).Nodup)
    (hkey : ∀ n ∈ nodes, keyedByHash n.Events = true)
    (hl : ∀ n ∈ nodes, hashesOK n.Events = true) :
    ∃ nodes2, gossipRound nodes = some nodes2 ∧
      nodes2.map (fun q => q.ID) = nodes.map (fun q => q.ID) ∧
      (∀ q ∈ nodes2, keyedByHash q.Events = true) ∧
      ∀ q ∈ nodes2, ∀ k, k ∈ mapKeys q.Events ↔ ∃ n ∈ nodes, k ∈ mapKeys n.Events := by
  obtain ⟨ns, hrun, hid, hpt, hdone⟩ :=
    gossipPrefix_inv nodes hids (roundInv_start nodes hkey hl) nodes.length (le_refl _)
  have hlen : ns.length = nodes.length := by
    have := congrArg List.length hid
    simpa using this
  have hfront : ∀ q ∈ ns, ∃ (j : Nat) (p : Node), nodes[j]? = some p ∧ ns[j]? = some q := by
    intro q hq
    obtain ⟨j, hj⟩ := List.mem_iff_getElem?.1 hq
    have hjl : j < nodes.length := by
      rw [← hlen]
      exact (List.getElem?_eq_some.1 hj).1
    exact ⟨j, nodes[j], List.getElem?_eq_getElem hjl, hj⟩
  refine ⟨ns, hrun, hid, ?_, ?_⟩
  · intro q hq
    obtain ⟨j, p, hp, hj⟩ := hfront q hq
    exact (hpt j p q hp hj).2.1
  · intro q hq k
    constructor
    · intro hk
      obtain ⟨j, p, hp, hj⟩ := hfront q hq
      exact (hpt j p q hp hj).2.2.2 k hk
    · rintro ⟨n, hn, hk⟩
      obtain ⟨t, ht⟩ := List.mem_iff_getElem?.1 hn
      exact hdone t n q (List.getElem?_eq_some.1 ht).1 ht hq k hk

/-- Witness of C10: after one round each of the three nodes holds both hashes. -/
theorem gossipRound_union_witness :
    (∃ nodes2, gossipRound gossipNodes = some nodes2 ∧
      ∀ q ∈ nodes2, ∀ k, k ∈ mapKeys q.Events ↔ ∃ n ∈ gossipNodes, k ∈ mapKeys n.Events) ∧
    (gossipRound gossipNodes).map (fun ns => ns.map (fun q => mapKeys q.Events)) =
      some [["a1b2c3", "bbbbbb"], ["a1b2c3", "bbbbbb"], ["a1b2c3", "bbbbbb"]] := by
  refine ⟨?_, by decide⟩
  obtain ⟨nodes2, hrun, _, _, hall⟩ :=
    gossipRound_union gossipNodes (by decide) (by decide) (by decide)
  exact ⟨nodes2, hrun, hall⟩

/-! ## Monotonic validity -/

theorem kept_refl (evs : List (String × Event)) : Kept evs evs :=
  fun _ c hc => ⟨c, hc, fun h => h⟩

theorem kept_append (evs added : List (String × Event)) : Kept evs (evs ++ added) := by
  intro k c hc
  refine ⟨c, ?_, fun h => h⟩
  rw [mapGet_append, hc]
  rfl

theorem kept_of_forall₂ {evs evs2 : List (String × Event)}
    (h : List.Forall₂ (fun kv kv2 => kv2.1 = kv.1 ∧ (kv.2.Valid = true → kv2.2.Valid = true))
      evs evs2) : Kept evs evs2 := by
  induction h with
  | nil => intro k c hc; simp [mapGet] at hc
  | @cons kv kv2 rest rest2 hab _ ih =>
    intro k c hc
    obtain ⟨k1, e1⟩ := kv
    obtain ⟨k2, e2⟩ := kv2
    obtain ⟨hk, hv⟩ := hab
    simp only at hk hv
    subst hk
    by_cases hkk : k2 = k
    · simp only [mapGet, hkk, if_true, Option.some.injEq] at hc ⊢
      subst hc
      exact ⟨e2, rfl, hv⟩
    · simp only [mapGet, hkk, if_false] at hc ⊢
      exact ih k c hc

theorem kept_stampNode (unique : List (String × Event)) (median : Int) (n : Node) :
    Kept n.Events (stampNode unique median n).Events := by
  apply kept_of_forall₂
  simp only [stampNode]
  refine forall₂_map_self _ _ _ ?_
  intro kv _
  refine ⟨rfl, ?_⟩
  intro hv
  rw [(stamp_fields unique median kv.2).1]
  exact hv

theorem forall₂_self {α : Type} (R : α → α → Prop) (l : List α) (h : ∀ a ∈ l, R a a) :
    List.Forall₂ R l l := by
  induction l with
  | nil => exact List.Forall₂.nil
  | cons a rest ih =>
    exact List.Forall₂.cons (h a (List.mem_cons_self _ _))
      (ih (fun b hb => h b (List.mem_cons_of_mem _ hb)))

theorem hashLoggable_selected (n : Node) (hl : hashesOK n.Events = true) :
    (transactionsToExecute n).all hashLoggable = true := by
  rw [List.all_eq_true]
  intro e he
  have he2 : e ∈ n.Events.map Prod.snd := (List.mem_filter.1 he).1
  obtain ⟨kv, hkv, rfl⟩ := List.mem_map.1 he2
  exact (List.all_eq_true.1 hl) kv hkv

/-- C8. Each operation returns and keeps every key of every store it touches, and a copy
that is valid stays valid under its key: `AddEvent` of any event, `Gossip` of `n` to any
peer list (for each peer, `n` itself included when it is in the list; the sender's own
store is not written), `VirtualVoting` for any `N`, `CalculateGlobalConsensusTime` on any
node list, and `ExecuteTransactions`, which leaves the store as it is. -/
theorem validity_monotonic (h : Heap) (n : Node) (e : Event) (peers nodes : List Node)
    (N : Int) (hok : heapOK h n.Events = true) (hl : hashesOK n.Events = true) :
    Kept n.Events (AddEvent n e).Events ∧
    (∃ peers2, Gossip n peers = some peers2 ∧
      List.Forall₂ (fun p p2 => Kept p.Events p2.Events) peers peers2) ∧
    (∃ h2 n2, VirtualVoting h n N = some (h2, n2) ∧ Kept n.Events n2.Events) ∧
    List.Forall₂ (fun p p2 => Kept p.Events p2.Events) nodes
      (CalculateGlobalConsensusTime nodes) ∧
    (∃ n2, ExecuteTransactions n = some n2 ∧ n2.Events = n.Events ∧
      Kept n.Events n2.Events) := by
  refine ⟨?_, ?_, ?_, ?_, ?_⟩
  · unfold AddEvent
    by_cases hh : mapHas n.Events e.Hash = true
    · simp only [hh, if_true]
      exact kept_refl _
    · simp only [hh]
      have habs : mapGet n.Events e.Hash = none :=
        (mapHas_false_iff _ _).1 (by simpa using hh)
      show Kept n.Events (mapSet n.Events e.Hash e)
      rw [mapSet_of_absent _ _ _ habs]
      exact kept_append _ _
  · obtain ⟨peers2, hrun, hall⟩ := gossip_spec n peers hl
    refine ⟨peers2, hrun, List.Forall₂.imp ?_ hall⟩
    intro p p2 ⟨_, hsame, hother⟩
    by_cases hid : p.ID = n.ID
    · rw [hsame hid]
      exact kept_refl _
    · obtain ⟨_, _, ⟨added, c, _⟩, _⟩ := hother hid
      rw [c]
      exact kept_append _ _
  · by_cases hN : N ≤ 0
    · exact ⟨h, n, by simp [VirtualVoting, hN], kept_refl _⟩
    · obtain ⟨h2, n2, hrun, _, _, _, hall⟩ :=
        virtualVoting_spec h n N (not_le.mp hN) hok hl
      refine ⟨h2, n2, hrun, kept_of_forall₂ (List.Forall₂.imp ?_ hall)⟩
      intro kv kv2 ⟨hk, he, _⟩
      refine ⟨hk, fun hv => ?_⟩
      rw [he]
      simp [hv]
  · unfold CalculateGlobalConsensusTime
    cases medianTime nodes with
    | none => exact forall₂_self _ _ (fun p _ => kept_refl _)
    | some median =>
      exact forall₂_map_self _ _ _ (fun p _ => kept_stampNode _ _ p)
  · rw [executeTransactions_eq n (hashLoggable_selected n hl)]
    exact ⟨_, rfl, rfl, kept_refl _⟩

/-- Witness of C8 on a node whose copy of one hash is valid. -/
theorem validity_monotonic_witness :
    Kept senderNode.Events (AddEvent senderNode mintAlice).Events ∧
    (∃ h2 n2, VirtualVoting [[]] senderNode 4 = some (h2, n2) ∧
      Kept senderNode.Events n2.Events) ∧
    (VirtualVoting [[]] senderNode 4).map
      (fun r => r.2.Events.map (fun kv => (kv.1, kv.2.Valid))) =
      some [("a1b2c3", true), ("bbbbbb", true)] := by
  have hw := validity_monotonic [[]] senderNode mintAlice gossipNodes gossipNodes 4
    (by decide) (by decide)
  exact ⟨hw.1, hw.2.2.1, by decide⟩

/-! ## No-op calls -/

/-- C17. For a total count `N ≤ 0`, `VirtualVoting(N)` returns and leaves the heap of vote
maps and the node as they are: no vote is recorded and no event is promoted. -/
theorem virtualVoting_nonpositive_noop (h : Heap) (n : Node) (N : Int) (hN : N ≤ 0) :
    VirtualVoting h n N = some (h, n) := by
  simp [VirtualVoting, hN]

/-- Witness of C17 with `N = -3`. -/
theorem virtualVoting_nonpositive_noop_witness :
    VirtualVoting [[]] (nodeWithMint 1) (-3) = some ([[]], nodeWithMint 1) :=
  virtualVoting_nonpositive_noop [[]] (nodeWithMint 1) (-3) (by decide)

theorem uniqueEvents_nil_of_no_valid (nodes : List Node)
    (hnone : ∀ n ∈ nodes, ∀ kv ∈ n.Events, kv.2.Valid = false) :
    uniqueEvents nodes = [] := by
  cases hu : uniqueEvents nodes with
  | nil => rfl
  | cons kv rest =>
    have hk : kv.1 ∈ mapKeys (uniqueEvents nodes) := by
      rw [hu]
      simp [mapKeys]
    obtain ⟨n, hn, x, hx, hv, _⟩ := (mem_uniqueEvents_keys nodes kv.1).1 hk
    rw [hnone n hn x hx] at hv
    exact absurd hv (by decide)

/-- C16. When no event copy on any node is valid (in particular when the node list is
empty), the aggregator computes no timestamp and returns the node list as it is: no
consensus time, validity flag, vote reference, store entry or balance changes. The
function is total, so there is no failure. -/
theorem consensusTime_noop (nodes : List Node)
    (hnone : ∀ n ∈ nodes, ∀ kv ∈ n.Events, kv.2.Valid = false) :
    medianTime nodes = none ∧ CalculateGlobalConsensusTime nodes = nodes ∧
    CalculateGlobalConsensusTime [] = [] := by
  have hlen : (allTimestamps nodes).length = 0 := by
    rw [allTimestamps_length, uniqueEvents_nil_of_no_valid nodes hnone]
    rfl
  have hmed : medianTime nodes = none := by simp [medianTime, hlen]
  refine ⟨hmed, ?_, rfl⟩
  simp [CalculateGlobalConsensusTime, hmed]

/-- Witness of C16 on a node list whose copies carry consensus times but are not valid. -/
theorem consensusTime_noop_witness :
    CalculateGlobalConsensusTime [pendingNode, emptyNode 5] = [pendingNode, emptyNode 5] :=
  (consensusTime_noop [pendingNode, emptyNode 5] (by decide)).2.1

/-! ## Balances are written by the executor only -/

/-- C18. `AddEvent`, `Gossip` (for every peer of the call, the sender included when it is
in the list; the sender itself is not written), `VirtualVoting` and
`CalculateGlobalConsensusTime` return and leave every balance map as it is. -/
theorem balances_only_by_executor (h : Heap) (n : Node) (e : Event)
    (peers nodes : List Node) (N : Int)
    (hok : heapOK h n.Events = true) (hl : hashesOK n.Events = true) :
    (AddEvent n e).Balances = n.Balances ∧
    (∃ peers2, Gossip n peers = some peers2 ∧
      List.Forall₂ (fun p p2 => p2.Balances = p.Balances) peers peers2) ∧
    (∃ h2 n2, VirtualVoting h n N = some (h2, n2) ∧ n2.Balances = n.Balances) ∧
    List.Forall₂ (fun p p2 => p2.Balances = p.Balances) nodes
      (CalculateGlobalConsensusTime nodes) := by
  refine ⟨?_, ?_, ?_, ?_⟩
  · unfold AddEvent
    split <;> rfl
  · obtain ⟨peers2, hrun, hall⟩ := gossip_spec n peers hl
    refine ⟨peers2, hrun, List.Forall₂.imp ?_ hall⟩
    intro p p2 ⟨_, hsame, hother⟩
    by_cases hid : p.ID = n.ID
    · rw [hsame hid]
    · exact (hother hid).2.1
  · by_cases hN : N ≤ 0
    · exact ⟨h, n, by simp [VirtualVoting, hN], rfl⟩
    · obtain ⟨h2, n2, hrun, _, _, hb, _⟩ := virtualVoting_spec h n N (not_le.mp hN) hok hl
      exact ⟨h2, n2, hrun, hb⟩
  · unfold CalculateGlobalConsensusTime
    cases medianTime nodes with
    | none => exact forall₂_self _ _ (fun p _ => rfl)
    | some median => exact forall₂_map_self _ _ _ (fun p _ => rfl)

/-- Witness of C18: a vote on a node with a balance. -/
theorem balances_only_by_executor_witness :
    ∃ h2 n2, VirtualVoting [[]] senderNode 4 = some (h2, n2) ∧
      n2.Balances = [("Alice", 3)] :=
  (balances_only_by_executor [[]] senderNode mintAlice gossipNodes gossipNodes 4
    (by decide) (by decide)).2.2.1

/-! ## The keying invariant -/

theorem keepsKeying_refl (evs : List (String × Event)) : KeepsKeying evs evs :=
  ⟨fun h => h, fun h => h⟩

theorem keepsKeying_append_hash (evs : List (String × Event)) (e : Event)
    (habs : mapGet evs e.Hash = none) : KeepsKeying evs (evs ++ [(e.Hash, e)]) := by
  constructor
  · intro hk
    simp only [keyedByHash, List.all_append, List.all_cons, List.all_nil, Bool.and_true,
      Bool.and_eq_true, decide_eq_true_eq] at hk ⊢
    exact ⟨hk, trivial⟩
  · intro hn
    simp only [mapKeys, List.map_append, List.map_cons, List.map_nil]
    refine List.Nodup.append hn (List.nodup_singleton _) ?_
    intro k hk hk2
    simp only [List.mem_singleton] at hk2
    subst hk2
    exact (mapGet_none_iff _ _).1 habs hk

theorem keepsKeying_trans {a b c : List (String × Event)}
    (h1 : KeepsKeying a b) (h2 : KeepsKeying b c) : KeepsKeying a c :=
  ⟨fun h => h2.1 (h1.1 h), fun h => h2.2 (h1.2 h)⟩

theorem receive_keepsKeying (p p1 : Node) (e : Event) (hr : receive p e = some p1) :
    KeepsKeying p.Events p1.Events := by
  unfold receive at hr
  by_cases hh : mapHas p.Events e.Hash = true
  · simp only [hh, if_true, Option.some.injEq] at hr
    subst hr
    exact keepsKeying_refl _
  · have habs : mapGet p.Events e.Hash = none :=
      (mapHas_false_iff _ _).1 (by simpa using hh)
    by_cases hlog : hashLoggable e = true
    · have hh2 : mapHas p.Events e.Hash = false := by simpa using hh
      simp only [hh2, hlog, if_true, Option.some.injEq] at hr
      simp only [Bool.false_eq_true, if_false, Option.some.injEq] at hr
      subst hr
      show KeepsKeying p.Events (mapSet p.Events e.Hash e)
      rw [mapSet_of_absent _ _ _ habs]
      exact keepsKeying_append_hash _ _ habs
    · simp [hh, hlog] at hr

theorem foldlM_receive_keepsKeying (es : List Event) :
    ∀ p p2 : Node, es.foldlM receive p = some p2 → KeepsKeying p.Events p2.Events := by
  induction es with
  | nil =>
    intro p p2 h
    have : p = p2 := by simpa using h
    subst this
    exact keepsKeying_refl _
  | cons e rest ih =>
    intro p p2 h
    rw [List.foldlM_cons] at h
    cases hr : receive p e with
    | none => simp [hr] at h
    | some p1 =>
      rw [hr] at h
      exact keepsKeying_trans (receive_keepsKeying p p1 e hr) (ih p1 p2 h)

theorem gossipTo_keepsKeying (n p p2 : Node) (h : gossipTo n p = some p2) :
    KeepsKeying p.Events p2.Events := by
  unfold gossipTo at h
  by_cases hid : p.ID = n.ID
  · simp only [hid, if_true, Option.some.injEq] at h
    subst h
    exact keepsKeying_refl _
  · simp only [hid, if_false] at h
    exact foldlM_receive_keepsKeying _ p p2 h

theorem keepsKeying_of_forall₂ {evs evs2 : List (String × Event)}
    (h : List.Forall₂ (fun kv kv2 => kv2.1 = kv.1 ∧ kv2.2.Hash = kv.2.Hash) evs evs2) :
    KeepsKeying evs evs2 := by
  induction h with
  | nil => exact keepsKeying_refl _
  | @cons kv kv2 rest rest2 hab hrest ih =>
    obtain ⟨hk, hh⟩ := hab
    have hfst : List.Forall₂ (fun (a b : String × Event) => b.1 = a.1) rest rest2 :=
      List.Forall₂.imp (fun {a b} x => x.1) hrest
    have hkeys : mapKeys rest2 = mapKeys rest := by
      have := forall₂_map_eq (fun p : String × Event => p.1) hfst
      simpa [mapKeys] using this
    constructor
    · intro hkey
      simp only [keyedByHash, List.all_cons, Bool.and_eq_true, decide_eq_true_eq] at hkey ⊢
      exact ⟨by rw [hh, hk]; exact hkey.1, by simpa [keyedByHash] using ih.1 (by
        simpa [keyedByHash] using hkey.2)⟩
    · intro hn
      simp only [mapKeys, List.map_cons, List.nodup_cons] at hn ⊢
      have h2 : (List.map Prod.fst rest2) = (List.map Prod.fst rest) := hkeys
      rw [h2, hk]
      exact hn

theorem mapM_some_forall₂ {α β : Type} (f : α → Option β) (l : List α) :
    ∀ l2, l.mapM f = some l2 → List.Forall₂ (fun a b => f a = some b) l l2 := by
  induction l with
  | nil =>
    intro l2 h
    rw [List.mapM_nil] at h
    have : l2 = [] := (Option.some.inj h).symm
    subst this
    exact List.Forall₂.nil
  | cons a rest ih =>
    intro l2 h
    rw [List.mapM_cons] at h
    cases ha : f a with
    | none =>
      rw [ha] at h
      cases h
    | some b =>
      cases hr : rest.mapM f with
      | none =>
        rw [ha, hr] at h
        cases h
      | some bs =>
        rw [ha, hr] at h
        have : l2 = b :: bs := (Option.some.inj h).symm
        subst this
        exact List.Forall₂.cons ha (ih bs hr)

theorem mapGet_of_mem_nodup {κ α : Type} [DecidableEq κ] (m : List (κ × α)) (kv : κ × α)
    (hn : (mapKeys m).Nodup) (hmem : kv ∈ m) : mapGet m kv.1 = some kv.2 := by
  induction m with
  | nil => simp at hmem
  | cons p rest ih =>
    obtain ⟨k', v'⟩ := p
    simp only [mapKeys, List.map_cons, List.nodup_cons] at hn
    rcases List.mem_cons.1 hmem with h | h
    · subst h
      simp [mapGet]
    · have hne : ¬ k' = kv.1 := by
        intro hk
        apply hn.1
        rw [hk]
        exact List.mem_map.2 ⟨kv, h, rfl⟩
      simp only [mapGet, hne, if_false]
      exact ih hn.2 h

theorem hashes_eq_keys_of_keyed (evs : List (String × Event))
    (hk : keyedByHash evs = true) : evs.map (fun kv => kv.2.Hash) = mapKeys evs := by
  unfold mapKeys
  apply List.map_congr_left
  intro kv hkv
  have := (List.all_eq_true.1 hk) kv hkv
  simpa using this

/-- C19. Each operation returns and keeps the keying of every store it touches: a store
keyed by the `Hash` field of its events (with the distinct keys of a Go map) is so
afterwards, for `AddEvent`, `Gossip` (every peer), `VirtualVoting`,
`CalculateGlobalConsensusTime` and `ExecuteTransactions`. In such a store no two entries
have the same `Hash`, and the lookup by `e.Hash` of an entry finds that entry, as the
lookup by its key does. -/
theorem keying_preserved (h : Heap) (n : Node) (e : Event) (peers nodes : List Node)
    (N : Int) (hok : heapOK h n.Events = true) (hl : hashesOK n.Events = true) :
    KeepsKeying n.Events (AddEvent n e).Events ∧
    (∃ peers2, Gossip n peers = some peers2 ∧
      List.Forall₂ (fun p p2 => KeepsKeying p.Events p2.Events) peers peers2) ∧
    (∃ h2 n2, VirtualVoting h n N = some (h2, n2) ∧ KeepsKeying n.Events n2.Events) ∧
    List.Forall₂ (fun p p2 => KeepsKeying p.Events p2.Events) nodes
      (CalculateGlobalConsensusTime nodes) ∧
    (∃ n2, ExecuteTransactions n = some n2 ∧ KeepsKeying n.Events n2.Events) ∧
    (∀ evs : List (String × Event), keyedByHash evs = true → (mapKeys evs).Nodup →
      (evs.map (fun kv => kv.2.Hash)).Nodup ∧
      ∀ kv ∈ evs, mapGet evs kv.2.Hash = some kv.2 ∧ mapGet evs kv.1 = some kv.2) := by
  refine ⟨?_, ?_, ?_, ?_, ?_, ?_⟩
  · unfold AddEvent
    by_cases hh : mapHas n.Events e.Hash = true
    · simp only [hh, if_true]
      exact keepsKeying_refl _
    · simp only [hh]
      have habs : mapGet n.Events e.Hash = none :=
        (mapHas_false_iff _ _).1 (by simpa using hh)
      show KeepsKeying n.Events (mapSet n.Events e.Hash e)
      rw [mapSet_of_absent _ _ _ habs]
      exact keepsKeying_append_hash _ _ habs
  · obtain ⟨peers2, hrun, _⟩ := gossip_spec n peers hl
    refine ⟨peers2, hrun, List.Forall₂.imp ?_ (mapM_some_forall₂ _ _ _ hrun)⟩
    intro p p2 hp
    exact gossipTo_keepsKeying n p p2 hp
  · by_cases hN : N ≤ 0
    · exact ⟨h, n, by simp [VirtualVoting, hN], keepsKeying_refl _⟩
    · obtain ⟨h2, n2, hrun, _, _, _, hall⟩ :=
        virtualVoting_spec h n N (not_le.mp hN) hok hl
      refine ⟨h2, n2, hrun, keepsKeying_of_forall₂ (List.Forall₂.imp ?_ hall)⟩
      intro kv kv2 ⟨hk, he, _⟩
      refine ⟨hk, ?_⟩
      rw [he]
  · unfold CalculateGlobalConsensusTime
    cases medianTime nodes with
    | none => exact forall₂_self _ _ (fun p _ => keepsKeying_refl _)
    | some median =>
      refine forall₂_map_self _ _ _ (fun p _ => ?_)
      apply keepsKeying_of_forall₂
      simp only [stampNode]
      refine forall₂_map_self _ _ _ (fun kv _ => ⟨rfl, ?_⟩)
      rw [(stamp_fields _ median kv.2).1]
  · rw [executeTransactions_eq n (hashLoggable_selected n hl)]
    exact ⟨_, rfl, keepsKeying_refl _⟩
  · intro evs hk hn
    refine ⟨by rw [hashes_eq_keys_of_keyed evs hk]; exact hn, ?_⟩
    intro kv hkv
    have h1 : kv.2.Hash = kv.1 := by
      have := (List.all_eq_true.1 hk) kv hkv
      simpa using this
    have h2 := mapGet_of_mem_nodup evs kv hn hkv
    exact ⟨by rw [h1]; exact h2, h2⟩

/-- Witness of C19: gossip from a keyed sender to keyed peers. -/
theorem keying_preserved_witness :
    ∃ peers2, Gossip senderNode gossipNodes = some peers2 ∧
      List.Forall₂ (fun p p2 => KeepsKeying p.Events p2.Events) gossipNodes peers2 :=
  (keying_preserved [[]] senderNode mintAlice gossipNodes gossipNodes 4
    (by decide) (by decide)).2.1

/-! ## Execution does not depend on the enumeration of the store -/

theorem sorted_perm_unique {α : Type} (r : α → α → Prop) :
    ∀ (l1 l2 : List α), l1.Perm l2 → List.Sorted r l1 → List.Sorted r l2 →
      (∀ a ∈ l1, ∀ b ∈ l1, r a b → r b a → a = b) → l1 = l2 := by
  intro l1
  induction l1 with
  | nil =>
    intro l2 hp _ _ _
    exact (List.Perm.nil_eq hp)
  | cons a t1 ih =>
    intro l2 hp h1 h2 hanti
    cases l2 with
    | nil => exact absurd hp.length_eq (by simp)
    | cons b t2 =>
      have ha1 := List.rel_of_sorted_cons h1
      have hb2 := List.rel_of_sorted_cons h2
      have hab : a = b := by
        have hamem : a ∈ b :: t2 := hp.mem_iff.1 (List.mem_cons_self _ _)
        have hbmem : b ∈ a :: t1 := hp.mem_iff.2 (List.mem_cons_self _ _)
        rcases List.mem_cons.1 hamem with h | h
        · exact h
        · rcases List.mem_cons.1 hbmem with h' | h'
          · exact h'.symm
          · exact hanti a (List.mem_cons_self _ _) b hbmem (ha1 b h') (hb2 a h)
      subst hab
      have hp2 : t1.Perm t2 := List.Perm.cons_inv hp
      have := ih t2 hp2 (List.Sorted.of_cons h1) (List.Sorted.of_cons h2)
        (fun x hx y hy => hanti x (List.mem_cons_of_mem _ hx) y (List.mem_cons_of_mem _ hy))
      rw [this]

theorem transactionsToExecute_perm (n1 n2 : Node) (hperm : n1.Events.Perm n2.Events) :
    (transactionsToExecute n1).Perm (transactionsToExecute n2) :=
  List.Perm.filter _ (List.Perm.map _ hperm)

theorem executeTransactions_balances (n : Node) :
    (ExecuteTransactions n).map (fun r => r.Balances) =
      (sortTransactions (transactionsToExecute n)).foldlM applyTx n.Balances := by
  unfold ExecuteTransactions
  by_cases h0 : (transactionsToExecute n).length = 0
  · have : transactionsToExecute n = [] := List.length_eq_zero.1 h0
    simp [this, sortTransactions]
  · simp only [h0, if_false]
    cases (sortTransactions (transactionsToExecute n)).foldlM applyTx n.Balances <;> rfl

/-- C13. Two enumerations of the same store (entries with pairwise distinct hashes) and the
same starting balances give the same sequence of applied events and the same outcome of
`ExecuteTransactions` on the balances, however many selected events share a consensus
time; when the hashes can be logged, both calls return, with the same balances. -/
theorem executeTransactions_order_independent (n1 n2 : Node)
    (hperm : n1.Events.Perm n2.Events)
    (hdist : (n1.Events.map (fun kv => kv.2.Hash)).Nodup)
    (hbal : n1.Balances = n2.Balances) :
    sortTransactions (transactionsToExecute n1) =
      sortTransactions (transactionsToExecute n2) ∧
    (ExecuteTransactions n1).map (fun r => r.Balances) =
      (ExecuteTransactions n2).map (fun r => r.Balances) ∧
    ((transactionsToExecute n1).all hashLoggable = true →
      ∃ b, ExecuteTransactions n1 = some { n1 with Balances := b } ∧
        ExecuteTransactions n2 = some { n2 with Balances := b }) := by
  have hinj : ∀ a ∈ n1.Events.map Prod.snd, ∀ b ∈ n1.Events.map Prod.snd,
      a.Hash = b.Hash → a = b := by
    intro a ha b hb hab
    have hd : ((n1.Events.map Prod.snd).map (fun e => e.Hash)).Nodup := by
      simpa [List.map_map, Function.comp] using hdist
    exact List.inj_on_of_nodup_map hd ha hb hab
  have hsub : ∀ a ∈ sortTransactions (transactionsToExecute n1),
      a ∈ n1.Events.map Prod.snd := by
    intro a ha
    exact (List.mem_filter.1 ((sortTransactions_perm _).mem_iff.1 ha)).1
  have hsorted : sortTransactions (transactionsToExecute n1) =
      sortTransactions (transactionsToExecute n2) := by
    apply sorted_perm_unique (fun a b => txLess b a = false)
    · exact ((sortTransactions_perm _).trans (transactionsToExecute_perm n1 n2 hperm)).trans
        (sortTransactions_perm _).symm
    · exact sortTransactions_sorted _
    · exact sortTransactions_sorted _
    · intro a ha b hb hab hba
      apply hinj a (hsub a ha) b (hsub b hb)
      rw [txLess_false_iff] at hab hba
      rcases hab with h1 | ⟨_, h1⟩ <;> rcases hba with h2 | ⟨_, h2⟩
      · exact absurd h1 (not_lt.mpr (le_of_lt h2))
      · rename_i h3
        rw [h3] at h1
        exact absurd h1 (lt_irrefl _)
      · rename_i h3
        rw [h3] at h2
        exact absurd h2 (lt_irrefl _)
      · exact le_antisymm h1 h2
  refine ⟨hsorted, ?_, ?_⟩
  · rw [executeTransactions_balances, executeTransactions_balances, hsorted, hbal]
  · intro hl
    have hl2 : (transactionsToExecute n2).all hashLoggable = true := by
      rw [List.all_eq_true] at hl ⊢
      intro e he
      exact hl e ((transactionsToExecute_perm n1 n2 hperm).mem_iff.2 he)
    refine ⟨_, executeTransactions_eq n1 hl, ?_⟩
    rw [executeTransactions_eq n2 hl2, hsorted, hbal]

/-- Witness of C13: the two enumerations of a two-event store. -/
theorem executeTransactions_order_independent_witness :
    sortTransactions (transactionsToExecute overdraftNode) =
      sortTransactions (transactionsToExecute overdraftNodeFlipped) ∧
    (ExecuteTransactions overdraftNode).map (fun r => r.Balances) =
      (ExecuteTransactions overdraftNodeFlipped).map (fun r => r.Balances) :=
  ⟨(executeTransactions_order_independent overdraftNode overdraftNodeFlipped
      (List.Perm.swap _ _ _) (by decide) (by decide)).1,
   (executeTransactions_order_independent overdraftNode overdraftNodeFlipped
      (List.Perm.swap _ _ _) (by decide) (by decide)).2.1⟩

/-! ## VirtualVoting twice -/

theorem heapKeeps_refl (id : Int) (h : Heap) : HeapKeeps id h h :=
  ⟨le_refl _, fun _ _ _ => rfl⟩

theorem heapKeeps_trans (id : Int) {a b c : Heap} (h1 : HeapKeeps id a b)
    (h2 : HeapKeeps id b c) : HeapKeeps id a c := by
  refine ⟨le_trans h1.1 h2.1, ?_⟩
  intro r hr hv
  have hb := h1.2 r hr hv
  have hc := h2.2 r (lt_of_lt_of_le hr h1.1) (by rw [hb]; exact hv)
  rw [hc, hb]

theorem settled_of_keeps (id thr : Int) (h h2 : Heap) (e : Event)
    (hs : Settled id thr h e) (hk : HeapKeeps id h h2) : Settled id thr h2 e := by
  obtain ⟨r, hv, hr, hm, hval⟩ := hs
  have heq := hk.2 r hr hm
  exact ⟨r, hv, lt_of_lt_of_le hr hk.1, by rw [heq]; exact hm, by rw [heq]; exact hval⟩

theorem heapKeeps_set (id : Int) (h : Heap) (r : Nat) :
    HeapKeeps id h (h.set r (mapSet (h.getD r []) id true)) := by
  refine ⟨by simp, ?_⟩
  intro j hj hv
  by_cases hjr : j = r
  · subst hjr
    rw [heap_getD_set_self _ _ _ hj, hv]
  · exact heap_getD_set_ne _ _ _ _ hjr

theorem voteStep_settles (id thr : Int) (h h2 : Heap) (e e2 : Event)
    (hlive : ∀ r, e.Votes = some r → r < h.length)
    (hstep : voteStep id thr h e = some (h2, e2)) :
    Settled id thr h2 e2 ∧ HeapKeeps id h h2 := by
  cases hv : e.Votes with
  | some r =>
    have hr : r < h.length := hlive r hv
    have hr2 : r < (h.set r (mapSet (h.getD r []) id true)).length := by simpa using hr
    rw [voteStep_of_some id thr h e r hv, heap_getD_set_self _ _ _ hr] at hstep
    by_cases hc : e.Valid = false ∧
        thr ≤ ((countVotes (mapSet (h.getD r []) id true) : Nat) : Int)
    · rw [if_pos hc] at hstep
      by_cases hlog : hashLoggable e = true
      · rw [if_pos hlog] at hstep
        have hpair := Option.some.inj hstep
        have h1 := (Prod.mk.inj hpair).1
        have h2e := (Prod.mk.inj hpair).2
        subst h1 h2e
        exact ⟨⟨r, rfl, hr2, by rw [heap_getD_set_self _ _ _ hr, mapSet_mapSet_self],
          Or.inl rfl⟩, heapKeeps_set id h r⟩
      · rw [if_neg hlog] at hstep
        cases hstep
    · rw [if_neg hc] at hstep
      have hpair := Option.some.inj hstep
      have h1 := (Prod.mk.inj hpair).1
      have h2e := (Prod.mk.inj hpair).2
      subst h1 h2e
      refine ⟨⟨r, rfl, hr2, by rw [heap_getD_set_self _ _ _ hr, mapSet_mapSet_self], ?_⟩,
        heapKeeps_set id h r⟩
      rw [heap_getD_set_self _ _ _ hr]
      by_cases hval : e.Valid = true
      · exact Or.inl hval
      · right
        intro hthr
        exact hc ⟨by simpa using hval, hthr⟩
  | none =>
    have hfresh : (h ++ [[]] : Heap).getD h.length [] = [] := by
      simp [List.getD_eq_getElem?_getD]
    have hlt : h.length < (h ++ [[]] : Heap).length := by simp
    have hkeep : HeapKeeps id h ((h ++ [[]] : Heap).set h.length (mapSet [] id true)) := by
      refine ⟨by simp, ?_⟩
      intro j hj _
      rw [heap_getD_set_ne _ _ _ _ (Nat.ne_of_lt hj), heap_getD_append_left _ _ _ hj]
    have hlen2 : h.length <
        ((h ++ [[]] : Heap).set h.length (mapSet [] id true)).length := by simp
    rw [voteStep_of_none id thr h e hv, hfresh, heap_getD_set_self _ _ _ hlt] at hstep
    by_cases hc : e.Valid = false ∧
        thr ≤ ((countVotes (mapSet ([] : VoteMap) id true) : Nat) : Int)
    · rw [if_pos hc] at hstep
      by_cases hlog : hashLoggable e = true
      · rw [if_pos hlog] at hstep
        have hpair := Option.some.inj hstep
        have h1 := (Prod.mk.inj hpair).1
        have h2e := (Prod.mk.inj hpair).2
        subst h1 h2e
        exact ⟨⟨h.length, rfl, hlen2,
          by rw [heap_getD_set_self _ _ _ hlt, mapSet_mapSet_self], Or.inl rfl⟩, hkeep⟩
      · rw [if_neg hlog] at hstep
        cases hstep
    · rw [if_neg hc] at hstep
      have hpair := Option.some.inj hstep
      have h1 := (Prod.mk.inj hpair).1
      have h2e := (Prod.mk.inj hpair).2
      subst h1 h2e
      refine ⟨⟨h.length, rfl, hlen2,
        by rw [heap_getD_set_self _ _ _ hlt, mapSet_mapSet_self], ?_⟩, hkeep⟩
      rw [heap_getD_set_self _ _ _ hlt]
      by_cases hval : e.Valid = true
      · exact Or.inl hval
      · right
        intro hthr
        exact hc ⟨by simpa using hval, hthr⟩

theorem heapOK_mono (h h2 : Heap) (evs : List (String × Event)) (hlen : h.length ≤ h2.length)
    (hok : heapOK h evs = true) : heapOK h2 evs = true := by
  simp only [heapOK, List.all_eq_true] at hok ⊢
  intro kv hkv
  have := hok kv hkv
  cases hv : kv.2.Votes with
  | none => rfl
  | some r =>
    simp only [hv, decide_eq_true_eq] at this ⊢
    omega

/-- After the voting loop every event of the rebuilt store is settled in the final heap. -/
theorem voteLoop_settles (id thr : Int) (evs : List (String × Event)) :
    ∀ (h hf : Heap) (evs2 : List (String × Event)), heapOK h evs = true →
      voteLoop id thr h evs = some (hf, evs2) →
      (∀ kv ∈ evs2, Settled id thr hf kv.2) ∧ HeapKeeps id h hf := by
  induction evs with
  | nil =>
    intro h hf evs2 _ hrun
    simp only [voteLoop, Option.some.injEq, Prod.mk.injEq] at hrun
    obtain ⟨h1, h2⟩ := hrun
    subst h1 h2
    exact ⟨fun kv hkv => by simp at hkv, heapKeeps_refl _ _⟩
  | cons kv rest ih =>
    intro h hf evs2 hok hrun
    obtain ⟨k, e⟩ := kv
    simp only [heapOK, List.all_cons, Bool.and_eq_true] at hok
    have hlive : ∀ r, e.Votes = some r → r < h.length := by
      intro r hv
      have := hok.1
      simp only [hv] at this
      exact of_decide_eq_true this
    simp only [voteLoop] at hrun
    cases hstep : voteStep id thr h e with
    | none => simp [hstep] at hrun
    | some s1 =>
      obtain ⟨h1, e1⟩ := s1
      simp only [hstep] at hrun
      cases hloop : voteLoop id thr h1 rest with
      | none => simp [hloop] at hrun
      | some s2 =>
        obtain ⟨h2, rest2⟩ := s2
        simp only [hloop, Option.some.injEq, Prod.mk.injEq] at hrun
        obtain ⟨hh, he⟩ := hrun
        subst hh he
        obtain ⟨hset, hkeep1⟩ := voteStep_settles id thr h h1 e e1 hlive hstep
        have hok1 : heapOK h1 rest = true :=
          heapOK_mono h h1 rest hkeep1.1 (by simpa [heapOK] using hok.2)
        obtain ⟨hall, hkeep2⟩ := ih h1 h2 rest2 hok1 hloop
        refine ⟨?_, heapKeeps_trans id hkeep1 hkeep2⟩
        intro kv hkv
        rcases List.mem_cons.1 hkv with hkv | hkv
        · subst hkv
          exact settled_of_keeps id thr h1 h2 e1 hset hkeep2
        · exact hall kv hkv

theorem heap_set_getD_self (h : Heap) (r : Nat) (hr : r < h.length) :
    h.set r (h.getD r []) = h := by
  apply List.ext_getElem?
  intro j
  by_cases hj : r = j
  · subst hj
    simp [List.getElem?_set, hr, List.getD_eq_getElem?_getD, List.getElem?_eq_getElem hr]
  · simp [List.getElem?_set, hj]

theorem voteStep_of_settled (id thr : Int) (h : Heap) (e : Event)
    (hs : Settled id thr h e) : voteStep id thr h e = some (h, e) := by
  obtain ⟨r, hv, hr, hm, hval⟩ := hs
  rw [voteStep_of_some id thr h e r hv, hm, heap_set_getD_self h r hr]
  have hc : ¬ (e.Valid = false ∧ thr ≤ ((countVotes (h.getD r []) : Nat) : Int)) := by
    rintro ⟨h1, h2⟩
    rcases hval with h3 | h3
    · rw [h3] at h1
      exact absurd h1 (by decide)
    · exact h3 h2
  rw [if_neg hc]
  cases e
  simp_all

theorem voteLoop_of_settled (id thr : Int) (h : Heap) (evs : List (String × Event))
    (hs : ∀ kv ∈ evs, Settled id thr h kv.2) : voteLoop id thr h evs = some (h, evs) := by
  induction evs with
  | nil => rfl
  | cons kv rest ih =>
    obtain ⟨k, e⟩ := kv
    have h1 := voteStep_of_settled id thr h e (hs (k, e) (List.mem_cons_self _ _))
    have h2 := ih (fun x hx => hs x (List.mem_cons_of_mem _ hx))
    simp only [voteLoop, h1, h2]

/-- C14. Calling `VirtualVoting(N)` twice in a row gives what calling it once gives: the
same heap of vote maps and the same node (store, validity flags, balances), for every node
state with live vote references and every `N`. The second call records no new vote,
promotes nothing and so logs nothing. -/
theorem virtualVoting_idempotent (h : Heap) (n : Node) (N : Int)
    (hok : heapOK h n.Events = true) :
    (VirtualVoting h n N).bind (fun s => VirtualVoting s.1 s.2 N) = VirtualVoting h n N ∧
    (hashesOK n.Events = true →
      ∃ h1 n1, VirtualVoting h n N = some (h1, n1) ∧
        VirtualVoting h1 n1 N = some (h1, n1)) := by
  have key : ∀ h1 n1, VirtualVoting h n N = some (h1, n1) →
      VirtualVoting h1 n1 N = some (h1, n1) := by
    intro h1 n1 hrun
    by_cases hN : N ≤ 0
    · simp [VirtualVoting, hN]
    · simp only [VirtualVoting, hN, if_false] at hrun ⊢
      cases hloop : voteLoop n.ID (threshold N) h n.Events with
      | none => simp [hloop] at hrun
      | some s =>
        obtain ⟨hf, evs2⟩ := s
        simp only [hloop, Option.some.injEq, Prod.mk.injEq] at hrun
        obtain ⟨hh, hn⟩ := hrun
        subst hh hn
        obtain ⟨hall, _⟩ := voteLoop_settles n.ID (threshold N) n.Events h hf evs2 hok hloop
        simp only [voteLoop_of_settled n.ID (threshold N) hf evs2 hall]
  constructor
  · cases hrun : VirtualVoting h n N with
    | none => rfl
    | some s =>
      obtain ⟨h1, n1⟩ := s
      exact key h1 n1 hrun
  · intro hl
    by_cases hN : N ≤ 0
    · exact ⟨h, n, by simp [VirtualVoting, hN], by simp [VirtualVoting, hN]⟩
    · obtain ⟨h1, n1, hrun, _⟩ := virtualVoting_spec h n N (not_le.mp hN) hok hl
      exact ⟨h1, n1, hrun, key h1 n1 hrun⟩

/-- Witness of C14: a node with a valid copy, a fresh copy and one with a nil vote map. -/
theorem virtualVoting_idempotent_witness :
    (VirtualVoting [[]] senderNode 1).bind (fun s => VirtualVoting s.1 s.2 1) =
      VirtualVoting [[]] senderNode 1 ∧
    (VirtualVoting [[]] senderNode 1).isSome = true :=
  ⟨(virtualVoting_idempotent [[]] senderNode 1 (by decide)).1, by decide⟩

/-! ## The single-participant scenario -/

theorem consensusTime_single (n : Node) (k : String) (e : Event)
    (hstore : n.Events = [(k, e)]) (hv : e.Valid = true) :
    CalculateGlobalConsensusTime [n] =
      [{ n with Events := [(k, { e with ConsensusTime := e.Timestamp })] }] := by
  have hall : allEvents [n] = [e] := by simp [allEvents, hstore]
  have hcol : collect [n] = ([(e.Hash, e)], [e.Timestamp]) := by
    simp [collect, hall, collectStep, hv, mapHas, mapGet, mapSet]
  have hmed : medianTime [n] = some e.Timestamp := by
    simp [medianTime, allTimestamps, hcol, sortTimestamps, medianOfSorted]
  have hu : uniqueEvents [n] = [(e.Hash, e)] := by simp [uniqueEvents, hcol]
  simp only [CalculateGlobalConsensusTime, hmed, hu, List.map_cons, List.map_nil, stampNode,
    hstore]
  by_cases hc : e.ConsensusTime = e.Timestamp
  · have : ({ e with ConsensusTime := e.Timestamp } : Event) = e := by
      cases e
      simp_all
    simp [stamp, mapHas, mapGet, hc, this]
  · simp [stamp, mapHas, mapGet, hc]

/-- C15, as the code has it. One node, `N = 1`, a store that holds exactly one mint event
(empty sender, receiver Alice, amount 100, positive creation timestamp, no votes; a freshly
created one is not valid and has consensus time 0, and neither value matters here):
`VirtualVoting(1)` makes the event valid, the
aggregator over the one-node list sets its consensus time to its own creation timestamp,
and `ExecuteTransactions` leaves Alice with her previous balance plus 100, as long as that
sum fits the 64-bit `int`, and every other balance as it was. -/
theorem solo_scenario (h : Heap) (n : Node) (k : String) (e : Event)
    (hstore : n.Events = [(k, e)])
    (hs : e.Sender = "") (hr : e.Receiver = "Alice") (ha : e.Amount = 100)
    (hts : 0 < e.Timestamp) (hvotes : votesOf h e = [])
    (hok : heapOK h n.Events = true) (hlog : hashLoggable e = true)
    (hlo : -2 ^ 63 ≤ balanceOf n.Balances "Alice")
    (hhi : balanceOf n.Balances "Alice" + 100 < 2 ^ 63) :
    ∃ h1 e1, VirtualVoting h n 1 = some (h1, { n with Events := [(k, e1)] }) ∧
      e1.Valid = true ∧
      CalculateGlobalConsensusTime [{ n with Events := [(k, e1)] }] =
        [{ n with Events := [(k, { e1 with ConsensusTime := e.Timestamp })] }] ∧
      ∃ n3, ExecuteTransactions
          { n with Events := [(k, { e1 with ConsensusTime := e.Timestamp })] } = some n3 ∧
        balanceOf n3.Balances "Alice" = balanceOf n.Balances "Alice" + 100 ∧
        (∀ a, a ≠ "Alice" → balanceOf n3.Balances a = balanceOf n.Balances a) ∧
        soloRound h n = some n3 := by
  have hl : hashesOK n.Events = true := by simp [hashesOK, hstore, hlog]
  obtain ⟨h1, n1, hrun, _, hid, hbal, hall⟩ := virtualVoting_spec h n 1 (by decide) hok hl
  rw [hstore] at hall
  generalize hev : n1.Events = evs1 at hall
  cases hall with
  | @cons _ kv2 _ rest2 hhead htail =>
    cases htail
    obtain ⟨k2, e1⟩ := kv2
    obtain ⟨hk, he1, _⟩ := hhead
    simp only at hk he1
    subst hk
    have hcount : countVotes (mapSet (votesOf h e) n.ID true) = 1 := by
      rw [hvotes]
      simp [mapSet, countVotes]
    have hvalid : e1.Valid = true := by
      rw [he1, hcount]
      have : threshold 1 = 1 := by decide
      simp [this]
    have hts1 : e1.Timestamp = e.Timestamp := by rw [he1]
    have hn1 : n1 = { n with Events := [(k2, e1)] } := by
      cases n1
      simp only at hid hbal hev
      subst hid hbal hev
      rfl
    subst hn1
    have hstamp : ({ e1 with ConsensusTime := e1.Timestamp } : Event) =
        { e1 with ConsensusTime := e.Timestamp } := by rw [hts1]
    have hcons : CalculateGlobalConsensusTime [{ n with Events := [(k2, e1)] }] =
        [{ n with Events := [(k2, { e1 with ConsensusTime := e.Timestamp })] }] := by
      rw [consensusTime_single { n with Events := [(k2, e1)] } k2 e1 rfl hvalid, hstamp]
    have hsel : transactionsToExecute
        { n with Events := [(k2, { e1 with ConsensusTime := e.Timestamp })] } =
        [{ e1 with ConsensusTime := e.Timestamp }] := by
      simp [transactionsToExecute, hvalid, hts]
    have hlog1 : hashLoggable { e1 with ConsensusTime := e.Timestamp } = true := by
      have : e1.Hash = e.Hash := by rw [he1]
      simpa [hashLoggable, this] using hlog
    have hexec := executeTransactions_eq
      { n with Events := [(k2, { e1 with ConsensusTime := e.Timestamp })] }
      (by rw [hsel]; simp [hlog1])
    rw [hsel] at hexec
    simp only [sortTransactions, List.insertionSort, List.orderedInsert, List.foldl_cons,
      List.foldl_nil] at hexec
    have hs1 : e1.Sender = "" := by rw [he1]; exact hs
    have hr1 : e1.Receiver = "Alice" := by rw [he1]; exact hr
    have ha1 : e1.Amount = 100 := by rw [he1]; exact ha
    have hwrap : wrap64 (balanceOf n.Balances "Alice" + 100) =
        balanceOf n.Balances "Alice" + 100 :=
      wrap64_of_range _ (by linarith) hhi
    refine ⟨h1, e1, hrun, hvalid, hcons, _, hexec, ?_, ?_, ?_⟩
    · show balanceOf (transfer n.Balances { e1 with ConsensusTime := e.Timestamp }) "Alice" = _
      rw [transfer_mint n.Balances { e1 with ConsensusTime := e.Timestamp } "Alice" hs1]
      simp [hr1, ha1, hwrap]
    · intro a hne
      show balanceOf (transfer n.Balances { e1 with ConsensusTime := e.Timestamp }) a = _
      rw [transfer_mint n.Balances { e1 with ConsensusTime := e.Timestamp } a hs1]
      simp [hr1, hne]
    · simp only [soloRound, hrun, hcons, hexec]

/-- Witness of C15: Alice has 40 before the round and 140 after it, Bob keeps his 7. -/
theorem solo_scenario_witness :
    ∃ h1 e1, VirtualVoting [[]] soloNode 1 =
        some (h1, { soloNode with Events := [("a1b2c3", e1)] }) ∧
      e1.Valid = true ∧
      CalculateGlobalConsensusTime [{ soloNode with Events := [("a1b2c3", e1)] }] =
        [{ soloNode with
            Events := [("a1b2c3", { e1 with ConsensusTime := mintAlice.Timestamp })] }] ∧
      ∃ n3, ExecuteTransactions
          { soloNode with
            Events := [("a1b2c3", { e1 with ConsensusTime := mintAlice.Timestamp })] } =
          some n3 ∧
        balanceOf n3.Balances "Alice" = balanceOf soloNode.Balances "Alice" + 100 ∧
        (∀ a, a ≠ "Alice" → balanceOf n3.Balances a = balanceOf soloNode.Balances a) ∧
        soloRound [[]] soloNode = some n3 :=
  solo_scenario [[]] soloNode "a1b2c3" mintAlice rfl rfl rfl rfl (by decide) (by decide)
    (by decide) (by decide) (by decide) (by decide)

/-- C15 as stated fails when Alice's previous balance is `2^63 - 1`: the credit of 100
wraps and she ends with `-2^63 + 99`, not with her previous balance plus 100. -/
theorem solo_scenario_overflow_counterexample :
    balanceOf soloNodeFull.Balances "Alice" = 2 ^ 63 - 1 ∧
    (soloRound [[]] soloNodeFull).map (fun n3 => balanceOf n3.Balances "Alice") =
      some (-2 ^ 63 + 99) ∧
    (soloRound [[]] soloNodeFull).map (fun n3 => balanceOf n3.Balances "Alice") ≠
      some (balanceOf soloNodeFull.Balances "Alice" + 100) := by
  decide

/-! ## Conservation of supply -/

theorem supply_mapSet (b : List (String × Int)) (k : String) (v : Int) :
    supply (mapSet b k v) = supply b - balanceOf b k + v := by
  induction b with
  | nil => simp [supply, mapSet, balanceOf, mapGet]
  | cons p rest ih =>
    obtain ⟨k', v'⟩ := p
    by_cases hk : k' = k
    · simp only [supply, mapSet, balanceOf, mapGet, hk, if_true, List.map_cons,
        List.sum_cons, Option.getD_some]
      ring
    · have ih2 : (List.map Prod.snd (mapSet rest k v)).sum =
          (List.map Prod.snd rest).sum - (mapGet rest k).getD 0 + v := ih
      simp only [supply, mapSet, balanceOf, mapGet, hk, if_false, List.map_cons,
        List.sum_cons, ih2]
      ring

theorem wrap64_modEq (x : Int) : wrap64 x % 2 ^ 64 = x % 2 ^ 64 := by
  unfold wrap64
  norm_num
  omega

theorem wrap64_of_inInt64 (x : Int) (h : inInt64 x = true) : wrap64 x = x := by
  simp only [inInt64, decide_eq_true_eq] at h
  exact wrap64_of_range x h.1 h.2

theorem mintTotal_cons (e : Event) (rest : List Event) :
    mintTotal (e :: rest) = (if e.Sender = "" then e.Amount else 0) + mintTotal rest := by
  unfold mintTotal
  by_cases hs : e.Sender = ""
  · simp [List.filter_cons, hs]
  · simp [List.filter_cons, hs]

theorem mintTotal_perm {l1 l2 : List Event} (hp : l1.Perm l2) :
    mintTotal l1 = mintTotal l2 := by
  unfold mintTotal
  exact List.Perm.sum_eq (List.Perm.map _ (List.Perm.filter _ hp))

/-- What one transfer does to the supply, wrap-around included. -/
theorem supply_transfer (b : List (String × Int)) (e : Event) :
    supply (transfer b e) % 2 ^ 64 =
      (supply b + (if e.Sender = "" then e.Amount else 0)) % 2 ^ 64 ∧
    (transferFits b e = true →
      supply (transfer b e) = supply b + (if e.Sender = "" then e.Amount else 0)) := by
  unfold transfer transferFits
  by_cases hs : e.Sender = ""
  · simp only [hs, if_true, supply_mapSet]
    constructor
    · have := wrap64_modEq (balanceOf b e.Receiver + e.Amount)
      omega
    · intro hf
      rw [wrap64_of_inInt64 _ hf]
      ring
  · by_cases hb : balanceOf b e.Sender ≥ e.Amount
    · simp only [hs, hb, if_false, if_true, supply_mapSet, Bool.and_eq_true]
      constructor
      · have h1 := wrap64_modEq (balanceOf b e.Sender - e.Amount)
        have h2 := wrap64_modEq
          (balanceOf (mapSet b e.Sender (wrap64 (balanceOf b e.Sender - e.Amount)))
            e.Receiver + e.Amount)
        omega
      · rintro ⟨hf1, hf2⟩
        rw [wrap64_of_inInt64 _ hf2, wrap64_of_inInt64 _ hf1]
        ring
    · simp only [hs, hb, if_false]
      simp

theorem supply_foldl_transfer (txs : List Event) :
    ∀ b : List (String × Int),
      supply (txs.foldl transfer b) % 2 ^ 64 = (supply b + mintTotal txs) % 2 ^ 64 ∧
      (runFits b txs = true → supply (txs.foldl transfer b) = supply b + mintTotal txs) := by
  induction txs with
  | nil => intro b; simp [mintTotal]
  | cons e rest ih =>
    intro b
    obtain ⟨hm, hx⟩ := ih (transfer b e)
    obtain ⟨sm, sx⟩ := supply_transfer b e
    rw [List.foldl_cons, mintTotal_cons]
    constructor
    · omega
    · intro hf
      simp only [runFits, Bool.and_eq_true] at hf
      rw [hx hf.2, sx hf.1]
      ring

/-- C20, as the code has it. `ExecuteTransactions` returns, and the sum of the node's
balances changes by the sum of the amounts of the selected events with an empty sender:
always modulo `2^64`, and exactly when every balance written during the call fits the
64-bit `int`. An event with a non-empty sender whose writes fit leaves the sum as it is,
accepted or rejected, sender and receiver equal or not; a mint whose write fits adds its
amount. -/
theorem supply_conservation (n : Node)
    (hl : (transactionsToExecute n).all hashLoggable = true) :
    ∃ n2, ExecuteTransactions n = some n2 ∧
      supply n2.Balances % 2 ^ 64 =
        (supply n.Balances + mintTotal (transactionsToExecute n)) % 2 ^ 64 ∧
      (runFits n.Balances (sortTransactions (transactionsToExecute n)) = true →
        supply n2.Balances = supply n.Balances + mintTotal (transactionsToExecute n)) ∧
      (∀ b e, e.Sender ≠ "" → transferFits b e = true → supply (transfer b e) = supply b) ∧
      (∀ b e, e.Sender = "" → transferFits b e = true →
        supply (transfer b e) = supply b + e.Amount) := by
  obtain ⟨hm, hx⟩ :=
    supply_foldl_transfer (sortTransactions (transactionsToExecute n)) n.Balances
  rw [mintTotal_perm (sortTransactions_perm (transactionsToExecute n))] at hm hx
  refine ⟨_, executeTransactions_eq n hl, hm, hx, ?_, ?_⟩
  · intro b e hs hf
    have := (supply_transfer b e).2 hf
    simpa [hs] using this
  · intro b e hs hf
    have := (supply_transfer b e).2 hf
    simpa [hs] using this

/-- Witness of C20: a rejected transfer, a mint of 5 and a self-transfer; the supply goes
from 11 to 16. -/
theorem supply_conservation_witness :
    supply supplyNode.Balances = 11 ∧ mintTotal (transactionsToExecute supplyNode) = 5 ∧
    ∃ n2, ExecuteTransactions supplyNode = some n2 ∧ supply n2.Balances = 11 + 5 := by
  obtain ⟨n2, hrun, _, hx, _, _⟩ := supply_conservation supplyNode (by decide)
  have h1 : supply supplyNode.Balances = 11 := by decide
  have h2 : mintTotal (transactionsToExecute supplyNode) = 5 := by decide
  refine ⟨h1, h2, n2, hrun, ?_⟩
  rw [hx (by decide), h1, h2]

/-- C20 as stated fails when a credit wraps: Carol holds `2^63 - 1`, the mint of 5 leaves
her with `-2^63 + 4`, and the supply changes by `5 - 2^64`, not by 5. -/
theorem supply_overflow_counterexample :
    supply brimNode.Balances = 2 ^ 63 - 1 ∧
    mintTotal (transactionsToExecute brimNode) = 5 ∧
    (ExecuteTransactions brimNode).map (fun n2 => supply n2.Balances) =
      some (-2 ^ 63 + 4) ∧
    (ExecuteTransactions brimNode).map (fun n2 => supply n2.Balances) ≠
      some (supply brimNode.Balances + mintTotal (transactionsToExecute brimNode)) := by
  decide

/-! ## The hash input of NewEvent -/

theorem digitVal_digitChar (k : Nat) (hk : k < 10) : digitVal (Nat.digitChar k) = k := by
  interval_cases k <;> rfl

theorem digitChar_ne_minus (k : Nat) (hk : k < 10) : Nat.digitChar k ≠ '-' := by
  interval_cases k <;> decide

theorem decode_toDigitsCore (fuel : Nat) :
    ∀ (n : Nat) (ds : List Char), n < fuel →
      (Nat.toDigitsCore 10 fuel n ds).foldl (fun a c => a * 10 + digitVal c) 0 =
        ds.foldl (fun a c => a * 10 + digitVal c) n := by
  induction fuel with
  | zero => intro n ds h; omega
  | succ fuel ih =>
    intro n ds h
    simp only [Nat.toDigitsCore]
    by_cases h0 : n / 10 = 0
    · simp only [h0, if_true, List.foldl_cons, Nat.zero_mul, Nat.zero_add]
      rw [digitVal_digitChar _ (Nat.mod_lt _ (by decide))]
      congr 1
      omega
    · simp only [h0, if_false]
      rw [ih (n / 10) _ (by omega), List.foldl_cons,
        digitVal_digitChar _ (Nat.mod_lt _ (by decide))]
      congr 1
      omega

theorem minus_not_mem_toDigitsCore (fuel : Nat) :
    ∀ (n : Nat) (ds : List Char), '-' ∉ ds → '-' ∉ Nat.toDigitsCore 10 fuel n ds := by
  induction fuel with
  | zero => intro n ds h; simpa [Nat.toDigitsCore] using h
  | succ fuel ih =>
    intro n ds h
    have hd : '-' ∉ Nat.digitChar (n % 10) :: ds := by
      intro hm
      rcases List.mem_cons.1 hm with hm | hm
      · exact digitChar_ne_minus _ (Nat.mod_lt _ (by decide)) hm.symm
      · exact h hm
    simp only [Nat.toDigitsCore]
    by_cases h0 : n / 10 = 0
    · simpa [h0] using hd
    · simp only [h0, if_false]
      exact ih _ _ hd

theorem natRepr_injective (m n : Nat) (h : Nat.repr m = Nat.repr n) : m = n := by
  have h1 : Nat.toDigits 10 m = Nat.toDigits 10 n := by
    have := congrArg String.data h
    simpa [Nat.repr] using this
  have hm := decode_toDigitsCore (m + 1) m [] (by omega)
  have hn := decode_toDigitsCore (n + 1) n [] (by omega)
  simp only [List.foldl_nil] at hm hn
  rw [← hm, ← hn]
  show (Nat.toDigits 10 m).foldl _ 0 = (Nat.toDigits 10 n).foldl _ 0
  rw [h1]

theorem intRepr_injective (x y : Int) (h : Int.repr x = Int.repr y) : x = y := by
  have hminus : ∀ (a b : Nat), Nat.repr a ≠ "-" ++ Nat.repr b := by
    intro a b hab
    have := congrArg String.data hab
    have hmem : '-' ∈ Nat.toDigits 10 a := by
      have h2 : (Nat.repr a).data = Nat.toDigits 10 a := rfl
      rw [← h2, this]
      simp [String.data_append]
    exact minus_not_mem_toDigitsCore (a + 1) a [] (by simp) hmem
  cases x with
  | ofNat a =>
    cases y with
    | ofNat b =>
      simp only [Int.repr] at h
      rw [natRepr_injective a b h]
    | negSucc b =>
      simp only [Int.repr] at h
      exact absurd h (hminus a _)
  | negSucc a =>
    cases y with
    | ofNat b =>
      simp only [Int.repr] at h
      exact absurd h.symm (hminus b _)
    | negSucc b =>
      simp only [Int.repr] at h
      have h2 : Nat.repr a.succ = Nat.repr b.succ := by
        apply String.ext
        have := congrArg String.data h
        simp only [String.data_append] at this
        exact List.append_cancel_left this
      have := natRepr_injective _ _ h2
      have : a = b := by omega
      rw [this]

theorem sprint_injective (x y : Int) (h : sprint x = sprint y) : x = y :=
  intRepr_injective x y h

theorem foldl_append_data (ps : List String) :
    ∀ base : String,
      (ps.foldl (fun acc p => acc ++ p) base).data =
        base.data ++ (ps.map String.data).flatten := by
  induction ps with
  | nil => intro base; simp
  | cons p rest ih =>
    intro base
    rw [List.foldl_cons, ih, String.data_append]
    simp [List.append_assoc]

theorem hashInput_data (s r : String) (a t : Int) (ps : List String) :
    (hashInput s r a t ps).data =
      s.data ++ (r.data ++ ((sprint a).data ++ ((sprint t).data ++
        (ps.map String.data).flatten))) := by
  unfold hashInput
  rw [foldl_append_data]
  simp [String.data_append, List.append_assoc]

theorem flatten_fixed_length_injective (L : Nat) (hL : 0 < L) :
    ∀ (l1 l2 : List (List Char)), (∀ x ∈ l1, x.length = L) → (∀ x ∈ l2, x.length = L) →
      l1.flatten = l2.flatten → l1 = l2 := by
  intro l1
  induction l1 with
  | nil =>
    intro l2 _ h2 h
    cases l2 with
    | nil => rfl
    | cons y rest =>
      have hy := h2 y (List.mem_cons_self _ _)
      have := congrArg List.length h
      simp at this
      omega
  | cons x rest ih =>
    intro l2 h1 h2 h
    have hx := h1 x (List.mem_cons_self _ _)
    cases l2 with
    | nil =>
      have := congrArg List.length h
      simp only [List.flatten_cons, List.length_append, List.flatten_nil,
        List.length_nil] at this
      omega
    | cons y rest2 =>
      have hy := h2 y (List.mem_cons_self _ _)
      simp only [List.flatten_cons] at h
      obtain ⟨hxy, hrest⟩ := List.append_inj h (by rw [hx, hy])
      rw [hxy, ih rest2 (fun z hz => h1 z (List.mem_cons_of_mem _ hz))
        (fun z hz => h2 z (List.mem_cons_of_mem _ hz)) hrest]

theorem map_data_injective : ∀ (l1 l2 : List String),
    l1.map String.data = l2.map String.data → l1 = l2 := by
  intro l1
  induction l1 with
  | nil =>
    intro l2 h
    cases l2 with
    | nil => rfl
    | cons y rest => simp at h
  | cons x rest ih =>
    intro l2 h
    cases l2 with
    | nil => simp at h
    | cons y rest2 =>
      simp only [List.map_cons, List.cons.injEq] at h
      rw [String.ext h.1, ih rest2 h.2]

/-- The hash input separates two tuples that differ in one component only (for the
parents: when every parent has the length of a digest, 64 characters). -/
theorem hashInput_separates (s1 s2 r1 r2 : String) (a1 a2 t1 t2 : Int)
    (ps1 ps2 : List String)
    (h : hashInput s1 r1 a1 t1 ps1 = hashInput s2 r2 a2 t2 ps2) :
    (r1 = r2 → a1 = a2 → t1 = t2 → ps1 = ps2 → s1 = s2) ∧
    (s1 = s2 → a1 = a2 → t1 = t2 → ps1 = ps2 → r1 = r2) ∧
    (s1 = s2 → r1 = r2 → t1 = t2 → ps1 = ps2 → a1 = a2) ∧
    (s1 = s2 → r1 = r2 → a1 = a2 → ps1 = ps2 → t1 = t2) ∧
    (s1 = s2 → r1 = r2 → a1 = a2 → t1 = t2 →
      (∀ p ∈ ps1, p.data.length = 64) → (∀ p ∈ ps2, p.data.length = 64) → ps1 = ps2) := by
  have hd := congrArg String.data h
  rw [hashInput_data, hashInput_data] at hd
  refine ⟨?_, ?_, ?_, ?_, ?_⟩
  · intro hr ha ht hp
    subst hr ha ht hp
    exact String.ext (List.append_cancel_right hd)
  · intro hs ha ht hp
    subst hs ha ht hp
    have h1 := List.append_cancel_left hd
    exact String.ext (List.append_cancel_right h1)
  · intro hs hr ht hp
    subst hs hr ht hp
    have h1 := List.append_cancel_left (List.append_cancel_left hd)
    exact sprint_injective _ _ (String.ext (List.append_cancel_right h1))
  · intro hs hr ha hp
    subst hs hr ha hp
    have h1 := List.append_cancel_left (List.append_cancel_left (List.append_cancel_left hd))
    exact sprint_injective _ _ (String.ext (List.append_cancel_right h1))
  · intro hs hr ha ht hl1 hl2
    subst hs hr ha ht
    have h1 := List.append_cancel_left (List.append_cancel_left
      (List.append_cancel_left (List.append_cancel_left hd)))
    apply map_data_injective
    apply flatten_fixed_length_injective 64 (by decide) _ _ _ _ h1
    · intro x hx
      obtain ⟨p, hp, rfl⟩ := List.mem_map.1 hx
      exact hl1 p hp
    · intro x hx
      obtain ⟨p, hp, rfl⟩ := List.mem_map.1 hx
      exact hl2 p hp

/-- C12, as the code has it. `NewEvent` sets `Hash` to the digest of the concatenation of
sender, receiver, decimal amount, decimal creation timestamp and the parent hashes, in that
order and without separators. Two events created with equal `Hash` whose hash inputs the
digest does not collide on have equal hash inputs, and then agree on any one component
(sender, receiver, amount, timestamp; parents when all are 64-character digests) as soon as
they agree on the other four. -/
theorem newEvent_hash_separates (digest : String → String) (h1 h2 : Heap)
    (s1 s2 r1 r2 : String) (a1 a2 t1 t2 : Int) (ps1 ps2 : List String)
    (hEq : (NewEvent digest t1 h1 s1 r1 a1 ps1).2.Hash =
      (NewEvent digest t2 h2 s2 r2 a2 ps2).2.Hash)
    (hcol : digest (hashInput s1 r1 a1 t1 ps1) = digest (hashInput s2 r2 a2 t2 ps2) →
      hashInput s1 r1 a1 t1 ps1 = hashInput s2 r2 a2 t2 ps2) :
    (NewEvent digest t1 h1 s1 r1 a1 ps1).2.Hash = digest (hashInput s1 r1 a1 t1 ps1) ∧
    hashInput s1 r1 a1 t1 ps1 = hashInput s2 r2 a2 t2 ps2 ∧
    (r1 = r2 → a1 = a2 → t1 = t2 → ps1 = ps2 → s1 = s2) ∧
    (s1 = s2 → a1 = a2 → t1 = t2 → ps1 = ps2 → r1 = r2) ∧
    (s1 = s2 → r1 = r2 → t1 = t2 → ps1 = ps2 → a1 = a2) ∧
    (s1 = s2 → r1 = r2 → a1 = a2 → ps1 = ps2 → t1 = t2) ∧
    (s1 = s2 → r1 = r2 → a1 = a2 → t1 = t2 →
      (∀ p ∈ ps1, p.data.length = 64) → (∀ p ∈ ps2, p.data.length = 64) → ps1 = ps2) := by
  have hin : hashInput s1 r1 a1 t1 ps1 = hashInput s2 r2 a2 t2 ps2 := hcol hEq
  exact ⟨rfl, hin, hashInput_separates s1 s2 r1 r2 a1 a2 t1 t2 ps1 ps2 hin⟩

/-- Witness of C12 with the identity as a digest that never collides, on two creations
that differ in sender and receiver and yet have the same hash input. -/
theorem newEvent_hash_separates_witness :
    hashInput "ab" "c" 1 5 [] = hashInput "a" "bc" 1 5 [] ∧
    ("ab" = "a" → "c" = "bc" → (1 : Int) = 1 → ([] : List String) = [] → (5 : Int) = 5) :=
  ⟨(newEvent_hash_separates (fun x => x) [] [] "ab" "a" "c" "bc" 1 1 5 5 [] []
      (by decide) (fun hh => hh)).2.1,
   (newEvent_hash_separates (fun x => x) [] [] "ab" "a" "c" "bc" 1 1 5 5 [] []
      (by decide) (fun hh => hh)).2.2.2.2.2.1⟩

/-- C12 as stated fails: the tuples (`ab`, `c`, 1, 5, no parents) and (`a`, `bc`, 1, 5, no
parents) differ and give the same hash input `abc15`, and so the same `Hash` under any
digest (here the identity, which has no collisions); so do receiver `y1` with amount 2 and
receiver `y` with amount 12, and the parent lists [`ab`, `c`] and [`a`, `bc`]. -/
theorem hashInput_collision_counterexample :
    hashInput "ab" "c" 1 5 [] = hashInput "a" "bc" 1 5 [] ∧
    ("ab", "c") ≠ ("a", "bc") ∧
    (NewEvent (fun x => x) 5 [] "ab" "c" 1 []).2.Hash =
      (NewEvent (fun x => x) 5 [] "a" "bc" 1 []).2.Hash ∧
    (NewEvent (fun x => x) 5 [] "ab" "c" 1 []).2.Sender ≠
      (NewEvent (fun x => x) 5 [] "a" "bc" 1 []).2.Sender ∧
    hashInput "x" "y1" 2 5 [] = hashInput "x" "y" 12 5 [] ∧
    hashInput "x" "y" 2 5 ["ab", "c"] = hashInput "x" "y" 2 5 ["a", "bc"] := by
  decide

/-! ## Agreement on the consensus time -/

theorem stampedValid_of_evolves (es es2 : List Event) (hinv : StampedValid es)
    (hev : Evolves es es2) : StampedValid es2 := by
  intro y hy hct
  rcases hev.2 y hy with h0 | ⟨x, hx, hxh, hxc⟩
  · exact absurd h0 hct
  · obtain ⟨v, hv, hvv, hvh⟩ := hinv x hx (by rw [hxc]; exact hct)
    obtain ⟨w, hw, hwh, hwv⟩ := hev.1 v hv
    exact ⟨w, hw, hwv hvv, by rw [hwh, hvh, hxh]⟩

theorem forall₂_mem_left {α β : Type} {R : α → β → Prop} {l1 : List α} {l2 : List β}
    (h : List.Forall₂ R l1 l2) : ∀ a ∈ l1, ∃ b ∈ l2, R a b := by
  induction h with
  | nil => intro a ha; simp at ha
  | @cons x y _ _ hxy _ ih =>
    intro a ha
    rcases List.mem_cons.1 ha with ha | ha
    · subst ha
      exact ⟨y, List.mem_cons_self _ _, hxy⟩
    · obtain ⟨b, hb, hr⟩ := ih a ha
      exact ⟨b, List.mem_cons_of_mem _ hb, hr⟩

theorem forall₂_mem_right {α β : Type} {R : α → β → Prop} {l1 : List α} {l2 : List β}
    (h : List.Forall₂ R l1 l2) : ∀ b ∈ l2, ∃ a ∈ l1, R a b := by
  induction h with
  | nil => intro b hb; simp at hb
  | @cons x y _ _ hxy _ ih =>
    intro b hb
    rcases List.mem_cons.1 hb with hb | hb
    · subst hb
      exact ⟨x, List.mem_cons_self _ _, hxy⟩
    · obtain ⟨a, ha, hr⟩ := ih b hb
      exact ⟨a, List.mem_cons_of_mem _ ha, hr⟩

theorem forall₂_set {α : Type} (R : α → α → Prop) (a a2 : α) :
    ∀ (l : List α) (i : Nat), l[i]? = some a → R a a2 → (∀ x ∈ l, R x x) →
      List.Forall₂ R l (l.set i a2) := by
  intro l
  induction l with
  | nil => intro i h; simp at h
  | cons x rest ih =>
    intro i h hr hrefl
    cases i with
    | zero =>
      simp at h
      subst h
      exact List.Forall₂.cons hr
        (forall₂_self _ _ (fun y hy => hrefl y (List.mem_cons_of_mem _ hy)))
    | succ i =>
      simp at h
      exact List.Forall₂.cons (hrefl x (List.mem_cons_self _ _))
        (ih i h hr (fun y hy => hrefl y (List.mem_cons_of_mem _ hy)))

theorem nodeEvolves_refl (nodes : List Node) (p : Node) (hp : p ∈ nodes) :
    NodeEvolves (allEvents nodes) p p := by
  refine ⟨fun x hx => ⟨x, hx, rfl, fun h => h⟩, ?_⟩
  intro y hy
  exact Or.inr ⟨y.2, (mem_allEvents nodes y.2).2 ⟨p, hp, y, hy, rfl⟩, rfl, rfl⟩

/-- Node-wise evolution of the stores gives evolution of the copies of the network. -/
theorem evolves_of_forall₂ (nodes nodes2 : List Node)
    (h : List.Forall₂ (fun p p2 => p ∈ nodes → NodeEvolves (allEvents nodes) p p2)
      nodes nodes2) :
    Evolves (allEvents nodes) (allEvents nodes2) := by
  constructor
  · intro x hx
    obtain ⟨p, hp, kv, hkv, rfl⟩ := (mem_allEvents nodes x).1 hx
    obtain ⟨p2, hp2, hr⟩ := forall₂_mem_left h p hp
    obtain ⟨y, hy, hyh, hyv⟩ := (hr hp).1 kv hkv
    exact ⟨y.2, (mem_allEvents nodes2 y.2).2 ⟨p2, hp2, y, hy, rfl⟩, hyh, hyv⟩
  · intro y hy
    obtain ⟨p2, hp2, kv, hkv, rfl⟩ := (mem_allEvents nodes2 y).1 hy
    obtain ⟨p, hp, hr⟩ := forall₂_mem_right h p2 hp2
    exact (hr hp).2 kv hkv

theorem nodeEvolves_addEvent (nodes : List Node) (n : Node) (e : Event) (hn : n ∈ nodes)
    (hct : e.ConsensusTime = 0) : NodeEvolves (allEvents nodes) n (AddEvent n e) := by
  unfold AddEvent
  by_cases hh : mapHas n.Events e.Hash = true
  · simp only [hh, if_true]
    exact nodeEvolves_refl nodes n hn
  · have habs : mapGet n.Events e.Hash = none :=
      (mapHas_false_iff _ _).1 (by simpa using hh)
    simp only [hh]
    constructor
    · intro x hx
      refine ⟨x, ?_, rfl, fun h => h⟩
      show x ∈ mapSet n.Events e.Hash e
      rw [mapSet_of_absent _ _ _ habs]
      exact List.mem_append_left _ hx
    · intro y hy
      have hy2 : y ∈ mapSet n.Events e.Hash e := hy
      rw [mapSet_of_absent _ _ _ habs] at hy2
      rcases List.mem_append.1 hy2 with hy3 | hy3
      · exact (nodeEvolves_refl nodes n hn).2 y hy3
      · simp only [List.mem_singleton] at hy3
        subst hy3
        exact Or.inl hct

theorem receive_some (p p1 : Node) (e : Event) (hr : receive p e = some p1) :
    ∃ added, p1.Events = p.Events ++ added ∧ ∀ kv ∈ added, kv.2 = e := by
  unfold receive at hr
  by_cases hh : mapHas p.Events e.Hash = true
  · simp only [hh, if_true, Option.some.injEq] at hr
    subst hr
    exact ⟨[], by simp, by simp⟩
  · have habs : mapGet p.Events e.Hash = none :=
      (mapHas_false_iff _ _).1 (by simpa using hh)
    have hh2 : mapHas p.Events e.Hash = false := by simpa using hh
    by_cases hlog : hashLoggable e = true
    · simp only [hh2, hlog, if_true, Option.some.injEq] at hr
      simp only [Bool.false_eq_true, if_false, Option.some.injEq] at hr
      subst hr
      exact ⟨[(e.Hash, e)], mapSet_of_absent _ _ _ habs, by simp⟩
    · simp [hh2, hlog] at hr

theorem foldlM_receive_some (es : List Event) :
    ∀ p p2 : Node, es.foldlM receive p = some p2 →
      ∃ added, p2.Events = p.Events ++ added ∧ ∀ kv ∈ added, kv.2 ∈ es := by
  induction es with
  | nil =>
    intro p p2 h
    have : p = p2 := by simpa using h
    subst this
    exact ⟨[], by simp, by simp⟩
  | cons e rest ih =>
    intro p p2 h
    rw [List.foldlM_cons] at h
    cases hr : receive p e with
    | none => simp [hr] at h
    | some p1 =>
      rw [hr] at h
      obtain ⟨add1, h1, h1m⟩ := receive_some p p1 e hr
      obtain ⟨add2, h2, h2m⟩ := ih p1 p2 h
      refine ⟨add1 ++ add2, by rw [h2, h1, List.append_assoc], ?_⟩
      intro kv hkv
      rcases List.mem_append.1 hkv with hkv | hkv
      · rw [h1m kv hkv]
        exact List.mem_cons_self _ _
      · exact List.mem_cons_of_mem _ (h2m kv hkv)

theorem nodeEvolves_gossipTo (nodes : List Node) (n p p2 : Node) (hn : n ∈ nodes)
    (hp : p ∈ nodes) (h : gossipTo n p = some p2) :
    NodeEvolves (allEvents nodes) p p2 := by
  unfold gossipTo at h
  by_cases hid : p.ID = n.ID
  · simp only [hid, if_true, Option.some.injEq] at h
    subst h
    exact nodeEvolves_refl nodes p hp
  · simp only [hid, if_false] at h
    obtain ⟨added, hev, hsrc⟩ := foldlM_receive_some _ p p2 h
    constructor
    · intro x hx
      exact ⟨x, by rw [hev]; exact List.mem_append_left _ hx, rfl, fun h => h⟩
    · intro y hy
      rw [hev] at hy
      rcases List.mem_append.1 hy with hy | hy
      · exact (nodeEvolves_refl nodes p hp).2 y hy
      · right
        obtain ⟨kv, hkv, he⟩ := List.mem_map.1 (hsrc y hy)
        exact ⟨y.2, (mem_allEvents nodes y.2).2 ⟨n, hn, kv, hkv, he⟩, rfl, rfl⟩

theorem voteStep_some_fields (id thr : Int) (h h2 : Heap) (e e2 : Event)
    (hstep : voteStep id thr h e = some (h2, e2)) :
    e2.Hash = e.Hash ∧ e2.ConsensusTime = e.ConsensusTime ∧
      (e.Valid = true → e2.Valid = true) := by
  cases hv : e.Votes with
  | some r =>
    rw [voteStep_of_some id thr h e r hv] at hstep
    split at hstep
    · split at hstep
      · have := (Prod.mk.inj (Option.some.inj hstep)).2
        subst this
        exact ⟨rfl, rfl, fun _ => rfl⟩
      · cases hstep
    · have := (Prod.mk.inj (Option.some.inj hstep)).2
      subst this
      exact ⟨rfl, rfl, fun hh => hh⟩
  | none =>
    rw [voteStep_of_none id thr h e hv] at hstep
    split at hstep
    · split at hstep
      · have := (Prod.mk.inj (Option.some.inj hstep)).2
        subst this
        exact ⟨rfl, rfl, fun _ => rfl⟩
      · cases hstep
    · have := (Prod.mk.inj (Option.some.inj hstep)).2
      subst this
      exact ⟨rfl, rfl, fun hh => hh⟩

theorem voteLoop_some_forall₂ (id thr : Int) (evs : List (String × Event)) :
    ∀ (h hf : Heap) (evs2 : List (String × Event)),
      voteLoop id thr h evs = some (hf, evs2) →
      List.Forall₂ (fun kv kv2 => kv2.2.Hash = kv.2.Hash ∧
        kv2.2.ConsensusTime = kv.2.ConsensusTime ∧
        (kv.2.Valid = true → kv2.2.Valid = true)) evs evs2 := by
  induction evs with
  | nil =>
    intro h hf evs2 hrun
    simp only [voteLoop, Option.some.injEq, Prod.mk.injEq] at hrun
    rw [← hrun.2]
    exact List.Forall₂.nil
  | cons kv rest ih =>
    intro h hf evs2 hrun
    obtain ⟨k, e⟩ := kv
    simp only [voteLoop] at hrun
    cases hstep : voteStep id thr h e with
    | none => simp [hstep] at hrun
    | some s1 =>
      obtain ⟨h1, e1⟩ := s1
      simp only [hstep] at hrun
      cases hloop : voteLoop id thr h1 rest with
      | none => simp [hloop] at hrun
      | some s2 =>
        obtain ⟨h2, rest2⟩ := s2
        simp only [hloop, Option.some.injEq, Prod.mk.injEq] at hrun
        rw [← hrun.2]
        exact List.Forall₂.cons (voteStep_some_fields id thr h h1 e e1 hstep)
          (ih h1 h2 rest2 hloop)

theorem nodeEvolves_vote (nodes : List Node) (h h2 : Heap) (n n2 : Node) (N : Int)
    (hn : n ∈ nodes) (hrun : VirtualVoting h n N = some (h2, n2)) :
    NodeEvolves (allEvents nodes) n n2 := by
  by_cases hN : N ≤ 0
  · simp only [VirtualVoting, hN, if_true, Option.some.injEq, Prod.mk.injEq] at hrun
    rw [← hrun.2]
    exact nodeEvolves_refl nodes n hn
  · simp only [VirtualVoting, hN, if_false] at hrun
    cases hloop : voteLoop n.ID (threshold N) h n.Events with
    | none => simp [hloop] at hrun
    | some s =>
      obtain ⟨hf, evs2⟩ := s
      simp only [hloop, Option.some.injEq, Prod.mk.injEq] at hrun
      rw [← hrun.2]
      have hall := voteLoop_some_forall₂ n.ID (threshold N) n.Events h hf evs2 hloop
      constructor
      · intro x hx
        obtain ⟨y, hy, hh, _, hv⟩ := forall₂_mem_left hall x hx
        exact ⟨y, hy, hh, hv⟩
      · intro y hy
        obtain ⟨x, hx, hh, hc, _⟩ := forall₂_mem_right hall y hy
        exact Or.inr ⟨x.2, (mem_allEvents nodes x.2).2 ⟨n, hn, x, hx, rfl⟩, hh.symm,
          hc.symm⟩

theorem executeTransactions_events (n n2 : Node) (h : ExecuteTransactions n = some n2) :
    n2.Events = n.Events := by
  unfold ExecuteTransactions at h
  by_cases h0 : (transactionsToExecute n).length = 0
  · simp only [h0, if_true, Option.some.injEq] at h
    rw [← h]
  · simp only [h0, if_false] at h
    cases hf : (sortTransactions (transactionsToExecute n)).foldlM applyTx n.Balances with
    | none => simp [hf] at h
    | some b =>
      simp only [hf, Option.some.injEq] at h
      rw [← h]

theorem allEvents_cons (n : Node) (rest : List Node) :
    allEvents (n :: rest) = n.Events.map Prod.snd ++ allEvents rest := by
  simp [allEvents]

theorem allEvents_map_stampNode (unique : List (String × Event)) (median : Int)
    (nodes : List Node) :
    allEvents (nodes.map (stampNode unique median)) =
      (allEvents nodes).map (stamp unique median) := by
  induction nodes with
  | nil => rfl
  | cons n rest ih =>
    rw [List.map_cons, allEvents_cons, allEvents_cons, ih, List.map_append]
    congr 1
    simp [stampNode, List.map_map, Function.comp]

theorem stamp_hash_valid (unique : List (String × Event)) (median : Int) (e : Event) :
    (stamp unique median e).Hash = e.Hash ∧ (stamp unique median e).Valid = e.Valid := by
  have h := (stamp_fields unique median e).1
  constructor
  · rw [h]
  · rw [h]

/-- What the aggregator leaves on the copies of a network in which every stamped copy has
its hash valid somewhere: a copy whose hash is valid somewhere carries the median, every
other copy carries 0. -/
theorem stamped_times (nodes : List Node) (median : Int)
    (hinv : StampedValid (allEvents nodes)) (e : Event) (he : e ∈ allEvents nodes) :
    (mapHas (uniqueEvents nodes) e.Hash = true →
      (stamp (uniqueEvents nodes) median e).ConsensusTime = median) ∧
    (mapHas (uniqueEvents nodes) e.Hash = false →
      (stamp (uniqueEvents nodes) median e).ConsensusTime = 0) := by
  obtain ⟨_, hin, hout⟩ := stamp_fields (uniqueEvents nodes) median e
  refine ⟨hin, ?_⟩
  intro hno
  rw [hout hno]
  by_contra hct
  obtain ⟨x, hx, hxv, hxh⟩ := hinv e he hct
  obtain ⟨p, hp, kv, hkv, hkx⟩ := (mem_allEvents nodes x).1 hx
  have : mapHas (uniqueEvents nodes) e.Hash = true :=
    (mapHas_uniqueEvents nodes e.Hash).2 ⟨p, hp, kv, hkv, by rw [hkx]; exact hxv,
      by rw [hkx]; exact hxh⟩
  rw [this] at hno
  exact absurd hno (by decide)

theorem stampedValid_consensus (nodes : List Node)
    (hinv : StampedValid (allEvents nodes)) :
    StampedValid (allEvents (CalculateGlobalConsensusTime nodes)) := by
  unfold CalculateGlobalConsensusTime
  cases medianTime nodes with
  | none => exact hinv
  | some median =>
    simp only [allEvents_map_stampNode]
    intro y hy hct
    obtain ⟨e, he, rfl⟩ := List.mem_map.1 hy
    obtain ⟨hin, hout⟩ := stamped_times nodes median hinv e he
    cases hh : mapHas (uniqueEvents nodes) e.Hash with
    | false => exact absurd (hout hh) hct
    | true =>
      obtain ⟨p, hp, kv, hkv, hv, hkh⟩ := (mapHas_uniqueEvents nodes e.Hash).1 hh
      refine ⟨stamp (uniqueEvents nodes) median kv.2,
        List.mem_map.2 ⟨kv.2, (mem_allEvents nodes kv.2).2 ⟨p, hp, kv, hkv, rfl⟩, rfl⟩, ?_, ?_⟩
      · rw [(stamp_hash_valid _ _ _).2]
        exact hv
      · rw [(stamp_hash_valid _ _ _).1, (stamp_hash_valid _ _ _).1]
        exact hkh

theorem evolves_set (nodes : List Node) (i : Nat) (n n2 : Node) (hi : nodes[i]? = some n)
    (hev : NodeEvolves (allEvents nodes) n n2) :
    Evolves (allEvents nodes) (allEvents (nodes.set i n2)) := by
  apply evolves_of_forall₂
  exact forall₂_set (fun p p2 => p ∈ nodes → NodeEvolves (allEvents nodes) p p2) n n2 nodes i
    hi (fun _ => hev) (fun x hx _ => nodeEvolves_refl nodes x hx)

theorem stampedValid_step (s s2 : Heap × List Node) (hstep : Step s s2)
    (hinv : StampedValid (allEvents s.2)) : StampedValid (allEvents s2.2) := by
  cases hstep with
  | addEvent h nodes i n e hi _ hct _ =>
    have hn : n ∈ nodes := List.mem_iff_getElem?.2 ⟨i, hi⟩
    exact stampedValid_of_evolves _ _ hinv
      (evolves_set nodes i n _ hi (nodeEvolves_addEvent nodes n e hn hct))
  | gossip h nodes i n nodes2 hi hrun =>
    have hn : n ∈ nodes := List.mem_iff_getElem?.2 ⟨i, hi⟩
    apply stampedValid_of_evolves _ _ hinv
    apply evolves_of_forall₂
    have hall := mapM_some_forall₂ (gossipTo n) nodes nodes2 hrun
    exact List.Forall₂.imp
      (fun {p p2} hg hp => nodeEvolves_gossipTo nodes n p p2 hn hp hg) hall
  | gossipOne h nodes i j n p p2 hi hj hrun =>
    have hn : n ∈ nodes := List.mem_iff_getElem?.2 ⟨i, hi⟩
    have hp : p ∈ nodes := List.mem_iff_getElem?.2 ⟨j, hj⟩
    have hall := mapM_some_forall₂ (gossipTo n) [p] [p2] hrun
    have hg : gossipTo n p = some p2 := by
      cases hall with
      | cons hhead _ => exact hhead
    exact stampedValid_of_evolves _ _ hinv
      (evolves_set nodes j p p2 hj (nodeEvolves_gossipTo nodes n p p2 hn hp hg))
  | vote h nodes i n N h2 n2 hi hrun =>
    have hn : n ∈ nodes := List.mem_iff_getElem?.2 ⟨i, hi⟩
    exact stampedValid_of_evolves _ _ hinv
      (evolves_set nodes i n n2 hi (nodeEvolves_vote nodes h h2 n n2 N hn hrun))
  | execute h nodes i n n2 hi hrun =>
    have hn : n ∈ nodes := List.mem_iff_getElem?.2 ⟨i, hi⟩
    have hev : NodeEvolves (allEvents nodes) n n2 := by
      have hsame := executeTransactions_events n n2 hrun
      have hrefl := nodeEvolves_refl nodes n hn
      unfold NodeEvolves at hrefl ⊢
      rw [hsame]
      exact hrefl
    exact stampedValid_of_evolves _ _ hinv (evolves_set nodes i n n2 hi hev)
  | consensus h nodes => exact stampedValid_consensus nodes hinv

/-- In every reachable state each copy that carries a consensus time has its hash valid
on some node. -/
theorem stampedValid_reachable (s : Heap × List Node) (hr : Reachable s) :
    StampedValid (allEvents s.2) := by
  induction hr with
  | init h nodes hempty =>
    intro e he
    obtain ⟨p, hp, kv, hkv, _⟩ := (mem_allEvents nodes e).1 he
    rw [hempty p hp] at hkv
    simp at hkv
  | step s s2 _ hstep ih => exact stampedValid_step s s2 hstep ih

/-- After the aggregator has run on a network in which every stamped copy has its hash
valid somewhere, the consensus time of a copy is a function of its hash, with values 0 and
the computed median only. -/
theorem consensusTime_by_hash (nodes : List Node) (hinv : StampedValid (allEvents nodes)) :
    ∃ f : String → Int,
      (∀ e ∈ allEvents (CalculateGlobalConsensusTime nodes), e.ConsensusTime = f e.Hash) ∧
      (∀ k, f k ≠ 0 → medianTime nodes = some (f k)) := by
  cases hmed : medianTime nodes with
  | none =>
    refine ⟨fun _ => 0, ?_, fun k hk => absurd rfl hk⟩
    intro e he
    simp only [CalculateGlobalConsensusTime, hmed] at he
    by_contra hct
    obtain ⟨x, hx, hxv, _⟩ := hinv e he hct
    obtain ⟨p, hp, kv, hkv, hkx⟩ := (mem_allEvents nodes x).1 hx
    have := medianTime_of_valid nodes ⟨p, hp, kv, hkv, by rw [hkx]; exact hxv⟩
    rw [hmed] at this
    cases this
  | some median =>
    refine ⟨fun k => if mapHas (uniqueEvents nodes) k = true then median else 0, ?_, ?_⟩
    · intro y hy
      simp only [CalculateGlobalConsensusTime, hmed, allEvents_map_stampNode] at hy
      obtain ⟨e, he, rfl⟩ := List.mem_map.1 hy
      obtain ⟨hin, hout⟩ := stamped_times nodes median hinv e he
      rw [(stamp_hash_valid _ _ _).1]
      cases hh : mapHas (uniqueEvents nodes) e.Hash with
      | false =>
        rw [hout hh]
        simp [hh]
      | true =>
        rw [hin hh]
        simp [hh]
    · intro k hk
      by_cases hh : mapHas (uniqueEvents nodes) k = true
      · simp [hh]
      · simp [hh] at hk

/-- C11. In every state reached from nodes with empty stores by `AddEvent` of freshly
created events, `Gossip` among the nodes, `VirtualVoting`, `ExecuteTransactions` and
`CalculateGlobalConsensusTime` over the node list, right after a call of
`CalculateGlobalConsensusTime` any two copies of the same hash, on whichever nodes, have
the same `ConsensusTime`, and every copy with a nonzero `ConsensusTime` carries the value
that call computed. -/
theorem consensusTime_agreement (s : Heap × List Node) (hr : Reachable s) :
    (∀ p ∈ CalculateGlobalConsensusTime s.2, ∀ q ∈ CalculateGlobalConsensusTime s.2,
      ∀ kv ∈ p.Events, ∀ kv2 ∈ q.Events, kv.2.Hash = kv2.2.Hash →
        kv.2.ConsensusTime = kv2.2.ConsensusTime) ∧
    (∀ p ∈ CalculateGlobalConsensusTime s.2, ∀ kv ∈ p.Events,
      kv.2.ConsensusTime ≠ 0 → medianTime s.2 = some kv.2.ConsensusTime) := by
  obtain ⟨f, hf, hmed⟩ := consensusTime_by_hash s.2 (stampedValid_reachable s hr)
  constructor
  · intro p hp q hq kv hkv kv2 hkv2 hh
    rw [hf kv.2 ((mem_allEvents _ kv.2).2 ⟨p, hp, kv, hkv, rfl⟩),
      hf kv2.2 ((mem_allEvents _ kv2.2).2 ⟨q, hq, kv2, hkv2, rfl⟩), hh]
  · intro p hp kv hkv hct
    have he := hf kv.2 ((mem_allEvents _ kv.2).2 ⟨p, hp, kv, hkv, rfl⟩)
    rw [he] at hct ⊢
    exact hmed _ hct

theorem reachedState_reachable : Reachable reachedState := by
  have h0 : Reachable (([] : Heap), [emptyNode 1, emptyNode 2]) :=
    Reachable.init _ _ (by decide)
  have h1 : Reachable (([[]] : Heap), [nodeWithMint 1, emptyNode 2]) :=
    Reachable.step _ _ h0
      (Step.addEvent [] [emptyNode 1, emptyNode 2] 0 (emptyNode 1) mintAlice
        (by decide) (by decide) (by decide) (by decide))
  have h2 : Reachable (([[(1, true)]] : Heap),
      [{ ID := 1, Events := [("a1b2c3", mintAliceValid)], Balances := [] }, emptyNode 2]) :=
    Reachable.step _ _ h1
      (Step.vote [[]] [nodeWithMint 1, emptyNode 2] 0 (nodeWithMint 1) 1 [[(1, true)]]
        { ID := 1, Events := [("a1b2c3", mintAliceValid)], Balances := [] }
        (by decide) (by decide))
  exact Reachable.step _ _ h2
    (Step.gossipOne [[(1, true)]]
      [{ ID := 1, Events := [("a1b2c3", mintAliceValid)], Balances := [] }, emptyNode 2] 0 1
      { ID := 1, Events := [("a1b2c3", mintAliceValid)], Balances := [] } (emptyNode 2)
      { ID := 2, Events := [("a1b2c3", mintAliceValid)], Balances := [] }
      (by decide) (by decide) (by decide))

/-- Witness of C11: in the reached state both copies get the creation timestamp 7. -/
theorem consensusTime_agreement_witness :
    Reachable reachedState ∧
    (∀ p ∈ CalculateGlobalConsensusTime reachedState.2, ∀ kv ∈ p.Events,
      kv.2.ConsensusTime ≠ 0 → medianTime reachedState.2 = some kv.2.ConsensusTime) ∧
    (CalculateGlobalConsensusTime reachedState.2).map
      (fun p => p.Events.map (fun kv => kv.2.ConsensusTime)) = [[7], [7]] :=
  ⟨reachedState_reachable, (consensusTime_agreement reachedState reachedState_reachable).2,
    by decide⟩

/-! ## Repeated execution -/

/-- One call on a store that holds exactly one valid mint with a consensus time: the
receiver's entry is rewritten, nothing else changes. -/
theorem executeTransactions_single_mint (n : Node) (key : String) (e : Event)
    (hstore : n.Events = [(key, e)]) (hs : e.Sender = "") (hv : e.Valid = true)
    (hct : 0 < e.ConsensusTime) (hlog : hashLoggable e = true) :
    ExecuteTransactions n =
      some { n with
        Balances := mapSet n.Balances e.Receiver
          (wrap64 (balanceOf n.Balances e.Receiver + e.Amount)) } := by
  have hsel : transactionsToExecute n = [e] := by
    simp [transactionsToExecute, hstore, hv, hct]
  have hexec := executeTransactions_eq n (by rw [hsel]; simp [hlog])
  rw [hsel] at hexec
  simp only [sortTransactions, List.insertionSort, List.orderedInsert, List.foldl_cons,
    List.foldl_nil] at hexec
  rw [hexec]
  simp [transfer, hs]

theorem wrap64_add_ne (x a : Int) (ha : a ≠ 0) (ha1 : -2 ^ 63 ≤ a) (ha2 : a < 2 ^ 63) :
    wrap64 (x + a) ≠ x := by
  unfold wrap64
  norm_num at ha1 ha2 ⊢
  omega

/-- What `k` calls in a row do on a store that holds exactly one valid mint. -/
theorem executeTimes_single_mint (key : String) (e : Event) (hs : e.Sender = "")
    (hv : e.Valid = true) (hct : 0 < e.ConsensusTime) (hlog : hashLoggable e = true)
    (k : Nat) :
    ∀ n : Node, n.Events = [(key, e)] →
      ∃ n2, executeTimes k n = some n2 ∧ n2.Events = n.Events ∧ n2.ID = n.ID ∧
        balanceOf n2.Balances e.Receiver % 2 ^ 64 =
          (balanceOf n.Balances e.Receiver + k * e.Amount) % 2 ^ 64 ∧
        ((∀ j : Nat, 1 ≤ j → j ≤ k →
            inInt64 (balanceOf n.Balances e.Receiver + j * e.Amount) = true) →
          balanceOf n2.Balances e.Receiver =
            balanceOf n.Balances e.Receiver + k * e.Amount) ∧
        (∀ a, a ≠ e.Receiver → balanceOf n2.Balances a = balanceOf n.Balances a) := by
  induction k with
  | zero =>
    intro n _
    exact ⟨n, rfl, rfl, rfl, by simp, fun _ => by simp, fun _ _ => rfl⟩
  | succ k ih =>
    intro n hstore
    have hone := executeTransactions_single_mint n key e hstore hs hv hct hlog
    obtain ⟨n2, hrun, hev, hid, hmod, hexact, hother⟩ :=
      ih { n with
        Balances := mapSet n.Balances e.Receiver
          (wrap64 (balanceOf n.Balances e.Receiver + e.Amount)) } hstore
    have hb1 : balanceOf (mapSet n.Balances e.Receiver
        (wrap64 (balanceOf n.Balances e.Receiver + e.Amount))) e.Receiver =
        wrap64 (balanceOf n.Balances e.Receiver + e.Amount) := by
      rw [balanceOf_mapSet]
      simp
    simp only [hb1] at hmod hexact
    refine ⟨n2, ?_, hev, hid, ?_, ?_, ?_⟩
    · simp only [executeTimes, hone]
      exact hrun
    · have hw := wrap64_modEq (balanceOf n.Balances e.Receiver + e.Amount)
      push_cast
      have h3 : (balanceOf n.Balances e.Receiver + (↑k + 1) * e.Amount) =
          (balanceOf n.Balances e.Receiver + e.Amount) + ↑k * e.Amount := by ring
      rw [h3]
      omega
    · intro hfit
      have h1 := hfit 1 (le_refl 1) (by omega)
      simp only [Nat.cast_one, one_mul] at h1
      have hw := wrap64_of_inInt64 _ h1
      rw [hw] at hexact
      rw [hexact]
      · push_cast
        ring
      · intro j hj1 hjk
        have := hfit (j + 1) (by omega) (by omega)
        have h4 : balanceOf n.Balances e.Receiver + e.Amount + ↑j * e.Amount =
            balanceOf n.Balances e.Receiver + ↑(j + 1) * e.Amount := by
          push_cast
          ring
        rw [h4]
        exact this
    · intro a ha
      rw [hother a ha, balanceOf_mapSet]
      simp [ha]

/-- C21, as the code has it. On a node whose store holds exactly one event, a valid mint
(empty sender) with `ConsensusTime > 0` and amount `a`, `k` calls of `ExecuteTransactions`
in a row return, leave the store and every other balance as they were, and credit the
receiver by `k*a`: always modulo `2^64`, and exactly when the balance fits the 64-bit `int`
after each of the `k` credits. For `a ≠ 0` (a 64-bit value) the receiver's balance after
two calls is never the one after one call: nothing records that the event was applied. -/
theorem executeTransactions_repeats (n : Node) (key : String) (e : Event) (k : Nat)
    (hstore : n.Events = [(key, e)]) (hs : e.Sender = "") (hv : e.Valid = true)
    (hct : 0 < e.ConsensusTime) (hlog : hashLoggable e = true) :
    (∃ n2, executeTimes k n = some n2 ∧ n2.Events = n.Events ∧ n2.ID = n.ID ∧
      balanceOf n2.Balances e.Receiver % 2 ^ 64 =
        (balanceOf n.Balances e.Receiver + k * e.Amount) % 2 ^ 64 ∧
      ((∀ j : Nat, 1 ≤ j → j ≤ k →
          inInt64 (balanceOf n.Balances e.Receiver + j * e.Amount) = true) →
        balanceOf n2.Balances e.Receiver =
          balanceOf n.Balances e.Receiver + k * e.Amount) ∧
      (∀ a, a ≠ e.Receiver → balanceOf n2.Balances a = balanceOf n.Balances a)) ∧
    (e.Amount ≠ 0 → inInt64 e.Amount = true →
      (executeTimes 2 n).map (fun r => balanceOf r.Balances e.Receiver) ≠
        (executeTimes 1 n).map (fun r => balanceOf r.Balances e.Receiver)) := by
  refine ⟨executeTimes_single_mint key e hs hv hct hlog k n hstore, ?_⟩
  intro ha hfit
  simp only [inInt64, decide_eq_true_eq] at hfit
  have hone := executeTransactions_single_mint n key e hstore hs hv hct hlog
  have htwo := executeTransactions_single_mint
    { n with
      Balances := mapSet n.Balances e.Receiver
        (wrap64 (balanceOf n.Balances e.Receiver + e.Amount)) } key e hstore hs hv hct hlog
  simp only [executeTimes, hone, htwo, Option.map_some', balanceOf_mapSet, if_true, ne_eq,
    Option.some.injEq]
  exact wrap64_add_ne _ _ ha hfit.1 hfit.2

/-- Witness of C21: three calls take Carol from 2 to 17, Bob keeps 7. -/
theorem executeTransactions_repeats_witness :
    (executeTimes 3 carolNode).map (fun r => r.Balances) =
      some [("Carol", 17), ("Bob", 7)] ∧
    ∃ n2, executeTimes 3 carolNode = some n2 ∧
      balanceOf n2.Balances "Carol" = balanceOf carolNode.Balances "Carol" + 3 * 5 := by
  refine ⟨by decide, ?_⟩
  obtain ⟨n2, hrun, _, _, _, hexact, _⟩ :=
    (executeTransactions_repeats carolNode "bbbbbb" mintCarol 3 rfl rfl rfl (by decide)
      (by decide)).1
  refine ⟨n2, hrun, ?_⟩
  have := hexact (by
    intro j hj1 hj3
    interval_cases j <;> decide)
  simpa [mintCarol] using this

/-- C21 as stated fails when a credit wraps: Carol holds `2^63 - 1`, two calls with the
mint of 5 leave her with `-2^63 + 9`, not with her balance plus `2*5`. -/
theorem executeTransactions_repeats_overflow_counterexample :
    balanceOf brimNode.Balances "Carol" = 2 ^ 63 - 1 ∧
    (executeTimes 2 brimNode).map (fun r => balanceOf r.Balances "Carol") =
      some (-2 ^ 63 + 9) ∧
    (executeTimes 2 brimNode).map (fun r => balanceOf r.Balances "Carol") ≠
      some (balanceOf brimNode.Balances "Carol" + 2 * 5) := by
  decide

end Hashgraph
